import Mathlib

/-!
Verification of the `ordenJson` package (repository SamuelPRG/ordenaJson).

The Go source `src/ordenJson/json-ordering-function.go` is embedded shallowly:

* the priority table `OrdenCampos`, the derived index `ordenCampoMap` (built by
  the package `init` function) and the lookup `obtenerOrdenCampo`;
* `OrdenarJSON`, including its input `switch` (string / map / unsupported), the
  key enumeration, the call to Go's `sort.Slice` (transliterated from the Go
  standard library's pdqsort, `sort/zsortfunc.go`, the implementation behind
  `sort.Slice` since Go 1.19), the manual `bytes.Buffer` assembly with
  `json.Marshal` for keys and values, and the final `json.Indent` pass;
* `OrdenarDocumentoMetadata`, the struct-to-map adapter.

Go maps have no defined iteration order, so a `map[string]interface{}` is
embedded as an association list: the list order is the order in which
`for clave := range datos` happens to enumerate the keys on one given run.
Machine integers cannot overflow in any reachable arithmetic here (all values
are list indices), so `int` is embedded as `Nat`.  A Go function returning
`(string, error)` where every error return site returns the empty string is
embedded as `Except GoError String`.
-/

/-- Errors of the embedded code.  In Go these are `error` values: a JSON syntax
error from `json.Unmarshal`, an unmarshalling type error from `json.Unmarshal`
(valid JSON whose top level cannot be stored in a `map[string]interface{}`),
the `fmt.Errorf("tipo de entrada no soportado: %T", input)` error (which names
the Go type of the offending input), and a `json.Marshal` error for values with
no JSON representation (functions, channels, ...). -/
inductive GoError where
  | syntaxError : GoError
  | typeError (goType : String) : GoError
  | unsupportedInput (goType : String) : GoError
  | marshalError (goType : String) : GoError
deriving Repr, DecidableEq

/-! ## The priority table (`OrdenCampos`, lines 35-53) -/

/-- `OrdenCampos` (lines 35-53): the ordered list of field names; the index in
the slice is the priority (smaller index = higher priority). -/
def OrdenCampos : List String :=
  [ "tanner:tipo-documento"
  , "tanner:razon-social-cliente"
  , "tanner:rut-cliente"
  , "tanner:estado-visado"
  , "tanner:estado-vigencia"
  , "tanner:fecha-carga"
  , "tanner:nombre-doc"
  , "tanner:categorias"
  , "tanner:sub-categorias"
  , "tanner:origen"
  , "tanner:relacion"
  , "tanner:fecha-termino-vigencia"
  , "cm:title"
  , "cm:versionType"
  , "cm:versionLabel"
  , "cm:description"
  , "tanner:observaciones" ]

/-- Go map assignment `m[k] = v` on an association list: replace the binding if
the key is present, append otherwise. -/
def mapAssign (m : List (String × Nat)) (k : String) (v : Nat) : List (String × Nat) :=
  if m.any (fun p => p.1 == k) then
    m.map (fun p => if p.1 == k then (k, v) else p)
  else
    m ++ [(k, v)]

/-- `ordenCampoMap` (lines 57-66): the map from field name to its position in
`OrdenCampos`, built by the package `init` function with
`for i, campo := range OrdenCampos { ordenCampoMap[campo] = i }`. -/
def ordenCampoMap : List (String × Nat) :=
  OrdenCampos.enum.foldl (fun m p => mapAssign m p.2 p.1) []

/-- `obtenerOrdenCampo` (lines 70-75): position of a field per the precomputed
map, or `len(OrdenCampos)` when the field is not listed. -/
def obtenerOrdenCampo (campo : String) : Nat :=
  match ordenCampoMap.lookup campo with
  | some orden => orden
  | none => OrdenCampos.length

theorem ordenCampoMap_eval :
    ordenCampoMap = OrdenCampos.enum.map (fun p => (p.2, p.1)) := by
  rfl

theorem obtenerOrdenCampo_of_not_mem {campo : String} (h : campo ∉ OrdenCampos) :
    obtenerOrdenCampo campo = OrdenCampos.length := by
  simp only [OrdenCampos, List.mem_cons, List.not_mem_nil, or_false, not_or] at h
  obtain ⟨h0, h1, h2, h3, h4, h5, h6, h7, h8, h9, h10, h11, h12, h13, h14, h15, h16⟩ := h
  simp [obtenerOrdenCampo, ordenCampoMap_eval, OrdenCampos, List.lookup,
    beq_eq_false_iff_ne.mpr h0, beq_eq_false_iff_ne.mpr h1, beq_eq_false_iff_ne.mpr h2,
    beq_eq_false_iff_ne.mpr h3, beq_eq_false_iff_ne.mpr h4, beq_eq_false_iff_ne.mpr h5,
    beq_eq_false_iff_ne.mpr h6, beq_eq_false_iff_ne.mpr h7, beq_eq_false_iff_ne.mpr h8,
    beq_eq_false_iff_ne.mpr h9, beq_eq_false_iff_ne.mpr h10, beq_eq_false_iff_ne.mpr h11,
    beq_eq_false_iff_ne.mpr h12, beq_eq_false_iff_ne.mpr h13, beq_eq_false_iff_ne.mpr h14,
    beq_eq_false_iff_ne.mpr h15, beq_eq_false_iff_ne.mpr h16]

theorem obtenerOrdenCampo_lt_iff_mem (campo : String) :
    obtenerOrdenCampo campo < OrdenCampos.length ↔ campo ∈ OrdenCampos := by
  constructor
  · intro h
    by_contra hm
    rw [obtenerOrdenCampo_of_not_mem hm] at h
    exact lt_irrefl _ h
  · intro h
    fin_cases h <;> decide

/-! ## Go's `sort.Slice`: pdqsort, transliterated from `sort/zsortfunc.go`
(the implementation used by `sort.Slice` since Go 1.19)

The slice being sorted is embedded as a function `f : Nat → α` together with
the length; `data.Swap(i, j)` is `swapF f i j` and `data.Less(i, j)` is
`lessF κ f i j` where `κ` is the key the comparator closure computes
(line 134 of the source compares `obtenerOrdenCampo` of the two keys).
Loops are written as fuel-indexed structural recursions; every fuel argument
is chosen at the call site to exceed the loop's iteration count, so the
fuel-exhaustion branches are unreachable (the pdqsort-level fallback on
exhausted fuel is Go's own `heapSort` fallback). -/

/-- The element swap `data.Swap(i, j)` of `sort.lessSwap`. -/
def swapF {α : Type} (f : Nat → α) (i j : Nat) : Nat → α :=
  fun k => if k = i then f j else if k = j then f i else f k

/-- The comparison `data.Less(i, j)`: the closure at line 134 of the source
compares the priority-table ranks of the two keys, abstracted here as a key
function `κ`. -/
def lessF {α : Type} (κ : α → Nat) (f : Nat → α) (i j : Nat) : Bool :=
  κ (f i) < κ (f j)

/-- Inner loop of `insertionSort_func`:
`for j := i; j > a && data.Less(j, j-1); j-- { data.Swap(j, j-1) }`. -/
def insSortInner {α : Type} (κ : α → Nat) (a : Nat) : Nat → (Nat → α) → (Nat → α)
  | 0, f => f
  | j + 1, f =>
    if a < j + 1 ∧ lessF κ f (j + 1) j then insSortInner κ a j (swapF f (j + 1) j) else f

/-- Outer loop of `insertionSort_func`: `for i := a + 1; i < b; i++`. -/
def insSortOuter {α : Type} (κ : α → Nat) (a b : Nat) : Nat → Nat → (Nat → α) → (Nat → α)
  | 0, _, f => f
  | fuel + 1, i, f =>
    if i < b then insSortOuter κ a b fuel (i + 1) (insSortInner κ a i f) else f

/-- `insertionSort_func(data, a, b)`: insertion sort of `data[a:b]`. -/
def insertionSortGo {α : Type} (κ : α → Nat) (f : Nat → α) (a b : Nat) : Nat → α :=
  insSortOuter κ a b (b - a) (a + 1) f

/-- `siftDown_func(data, lo, hi, first)`: sift the root at `lo` down inside the
implicit max-heap on `data[first : first+hi]`.  `fuel ≥ hi` iterations always
suffice because the root index strictly increases. -/
def siftDownGo {α : Type} (κ : α → Nat) (hi first : Nat) :
    Nat → Nat → (Nat → α) → (Nat → α)
  | 0, _, f => f
  | fuel + 1, root, f =>
    let child0 := 2 * root + 1
    if child0 ≥ hi then f
    else
      let child :=
        if child0 + 1 < hi ∧ lessF κ f (first + child0) (first + child0 + 1) then
          child0 + 1
        else child0
      if ¬ lessF κ f (first + root) (first + child) then f
      else siftDownGo κ hi first fuel child (swapF f (first + root) (first + child))

/-- Heap-building loop of `heapSort_func`:
`for i := (hi-1)/2; i >= 0; i--` (runs for `i, i-1, ..., 0`). -/
def heapSortBuild {α : Type} (κ : α → Nat) (hi first : Nat) : Nat → (Nat → α) → (Nat → α)
  | 0, f => siftDownGo κ hi first (hi + 1) 0 f
  | i + 1, f => heapSortBuild κ hi first i (siftDownGo κ hi first (hi + 1) (i + 1) f)

/-- Extraction loop of `heapSort_func`:
`for i := hi-1; i >= 0; i-- { data.Swap(first, first+i); siftDown(data, lo, i, first) }`. -/
def heapSortExtract {α : Type} (κ : α → Nat) (first : Nat) : Nat → (Nat → α) → (Nat → α)
  | 0, f => siftDownGo κ 0 first 1 0 (swapF f first first)
  | i + 1, f =>
    heapSortExtract κ first i
      (siftDownGo κ (i + 1) first (i + 2) 0 (swapF f first (first + (i + 1))))

/-- `heapSort_func(data, a, b)`.  The extraction loop starts at `hi - 1`, so
it does not run at all when `hi = 0` (its Go loop variable starts at `-1`). -/
def heapSortGo {α : Type} (κ : α → Nat) (a b : Nat) (f : Nat → α) : Nat → α :=
  let first := a
  let hi := b - a
  let f1 := heapSortBuild κ hi first ((hi - 1) / 2) f
  if hi = 0 then f1 else heapSortExtract κ first (hi - 1) f1

/-- `for i <= j && data.Less(i, a) { i++ }` (the `partition_func` left scan);
returns the final `i`.  Sufficient fuel is `j + 2 - i`. -/
def scanLess {α : Type} (κ : α → Nat) (f : Nat → α) (a j : Nat) : Nat → Nat → Nat
  | 0, i => i
  | fuel + 1, i => if i ≤ j ∧ lessF κ f i a then scanLess κ f a j fuel (i + 1) else i

/-- `for i <= j && !data.Less(j, a) { j-- }` (the `partition_func` right scan);
returns the final `j`.  Structural on `j`. -/
def scanNotLess {α : Type} (κ : α → Nat) (f : Nat → α) (a i : Nat) : Nat → Nat
  | 0 => 0
  | j + 1 => if i ≤ j + 1 ∧ ¬ lessF κ f (j + 1) a then scanNotLess κ f a i j else j + 1

/-- Main loop of `partition_func`; returns `(j, f)` after the `break`. -/
def partitionLoop {α : Type} (κ : α → Nat) (a : Nat) :
    Nat → Nat → Nat → (Nat → α) → Nat × (Nat → α)
  | 0, _, j, f => (j, f)
  | fuel + 1, i, j, f =>
    let i' := scanLess κ f a j (j + 2 - i) i
    let j' := scanNotLess κ f a i' j
    if i' > j' then (j', f)
    else partitionLoop κ a fuel (i' + 1) (j' - 1) (swapF f i' j')

/-- `partition_func(data, a, b, pivot)`: returns `(newpivot, alreadyPartitioned, data)`. -/
def partitionGo {α : Type} (κ : α → Nat) (f : Nat → α) (a b pivot : Nat) :
    Nat × Bool × (Nat → α) :=
  let f := swapF f a pivot
  let i := a + 1
  let j := b - 1
  let i1 := scanLess κ f a j (j + 2 - i) i
  let j1 := scanNotLess κ f a i1 j
  if i1 > j1 then (j1, true, swapF f j1 a)
  else
    let f := swapF f i1 j1
    let (j2, f) := partitionLoop κ a b (i1 + 1) (j1 - 1) f
    (j2, false, swapF f j2 a)

/-- Scan `for i <= j && !data.Less(a, i) { i++ }` of `partitionEqual_func`. -/
def scanNotGreater {α : Type} (κ : α → Nat) (f : Nat → α) (a j : Nat) : Nat → Nat → Nat
  | 0, i => i
  | fuel + 1, i =>
    if i ≤ j ∧ ¬ lessF κ f a i then scanNotGreater κ f a j fuel (i + 1) else i

/-- Scan `for i <= j && data.Less(a, j) { j-- }` of `partitionEqual_func`. -/
def scanGreater {α : Type} (κ : α → Nat) (f : Nat → α) (a i : Nat) : Nat → Nat
  | 0 => 0
  | j + 1 => if i ≤ j + 1 ∧ lessF κ f a (j + 1) then scanGreater κ f a i j else j + 1

/-- Main loop of `partitionEqual_func`; returns `(i, f)` after the `break`. -/
def partitionEqualLoop {α : Type} (κ : α → Nat) (a : Nat) :
    Nat → Nat → Nat → (Nat → α) → Nat × (Nat → α)
  | 0, i, _, f => (i, f)
  | fuel + 1, i, j, f =>
    let i' := scanNotGreater κ f a j (j + 2 - i) i
    let j' := scanGreater κ f a i' j
    if i' > j' then (i', f)
    else partitionEqualLoop κ a fuel (i' + 1) (j' - 1) (swapF f i' j')

/-- `partitionEqual_func(data, a, b, pivot)`: partitions `data[a:b]` into
elements equal to `data[pivot]` followed by elements greater; returns
`(newpivot, data)`. -/
def partitionEqualGo {α : Type} (κ : α → Nat) (f : Nat → α) (a b pivot : Nat) :
    Nat × (Nat → α) :=
  let f := swapF f a pivot
  partitionEqualLoop κ a b (a + 1) (b - 1) f

/-- Scan `for i < b && !data.Less(i, i-1) { i++ }` of `partialInsertionSort_func`. -/
def pisScan {α : Type} (κ : α → Nat) (f : Nat → α) (b : Nat) : Nat → Nat → Nat
  | 0, i => i
  | fuel + 1, i => if i < b ∧ ¬ lessF κ f i (i - 1) then pisScan κ f b fuel (i + 1) else i

/-- Left shift of `partialInsertionSort_func`:
`for j := i - 1; j >= 1; j-- { if !data.Less(j, j-1) break; data.Swap(j, j-1) }`. -/
def pisShiftLeft {α : Type} (κ : α → Nat) : Nat → (Nat → α) → (Nat → α)
  | 0, f => f
  | j + 1, f => if lessF κ f (j + 1) j then pisShiftLeft κ j (swapF f (j + 1) j) else f

/-- Right shift of `partialInsertionSort_func`:
`for j := i + 1; j < b; j++ { if !data.Less(j, j-1) break; data.Swap(j, j-1) }`. -/
def pisShiftRight {α : Type} (κ : α → Nat) (b : Nat) : Nat → Nat → (Nat → α) → (Nat → α)
  | 0, _, f => f
  | fuel + 1, j, f =>
    if j < b ∧ lessF κ f j (j - 1) then pisShiftRight κ b fuel (j + 1) (swapF f j (j - 1))
    else f

/-- Step loop of `partialInsertionSort_func` (`maxSteps = 5` attempts;
`shortestShifting = 50`).  Returns the data and the boolean result. -/
def pisSteps {α : Type} (κ : α → Nat) (a b : Nat) :
    Nat → Nat → (Nat → α) → (Nat → α) × Bool
  | 0, _, f => (f, false)
  | steps + 1, i, f =>
    let i' := pisScan κ f b (b - i) i
    if i' = b then (f, true)
    else if b - a < 50 then (f, false)
    else
      let f1 := swapF f i' (i' - 1)
      let f2 := if i' - a ≥ 2 then pisShiftLeft κ (i' - 1) f1 else f1
      let f3 := if b - i' ≥ 2 then pisShiftRight κ b (b - i') (i' + 1) f2 else f2
      pisSteps κ a b steps i' f3

/-- `partialInsertionSort_func(data, a, b)`: partially sorts, returning `true`
when `data[a:b]` ends up sorted. -/
def partialInsertionSortGo {α : Type} (κ : α → Nat) (f : Nat → α) (a b : Nat) :
    (Nat → α) × Bool :=
  pisSteps κ a b 5 (a + 1) f

inductive SortHint where
  | increasing : SortHint
  | decreasing : SortHint
  | unknown : SortHint
deriving Repr, DecidableEq

/-- `order2_func(data, a, b, &swaps)`: the pair `(a, b)` ordered by `Less`,
with the swap counter. -/
def order2Go {α : Type} (κ : α → Nat) (f : Nat → α) (a b swaps : Nat) :
    Nat × Nat × Nat :=
  if lessF κ f b a then (b, a, swaps + 1) else (a, b, swaps)

/-- `median_func(data, a, b, c, &swaps)`: index of the median of three. -/
def medianGo {α : Type} (κ : α → Nat) (f : Nat → α) (a b c swaps : Nat) : Nat × Nat :=
  let s1 := order2Go κ f a b swaps
  let s2 := order2Go κ f s1.2.1 c s1.2.2
  let s3 := order2Go κ f s1.1 s2.1 s2.2.2
  (s3.2.1, s3.2.2)

/-- `medianAdjacent_func(data, a, &swaps)`: median of `a-1, a, a+1`. -/
def medianAdjacentGo {α : Type} (κ : α → Nat) (f : Nat → α) (a swaps : Nat) : Nat × Nat :=
  medianGo κ f (a - 1) a (a + 1) swaps

/-- `choosePivot_func(data, a, b)`: pivot selection with sortedness hint
(`shortestNinther = 50`, `maxSwaps = 12`). -/
def choosePivotGo {α : Type} (κ : α → Nat) (f : Nat → α) (a b : Nat) : Nat × SortHint :=
  let l := b - a
  let i0 := a + l / 4 * 1
  let j0 := a + l / 4 * 2
  let k0 := a + l / 4 * 3
  let r :=
    if l ≥ 8 then
      let t :=
        if l ≥ 50 then
          let mi := medianAdjacentGo κ f i0 0
          let mj := medianAdjacentGo κ f j0 mi.2
          let mk := medianAdjacentGo κ f k0 mj.2
          (mi.1, mj.1, mk.1, mk.2)
        else (i0, j0, k0, 0)
      let m := medianGo κ f t.1 t.2.1 t.2.2.1 t.2.2.2
      (m.1, m.2)
    else (j0, 0)
  if r.2 = 0 then (r.1, SortHint.increasing)
  else if r.2 = 12 then (r.1, SortHint.decreasing)
  else (r.1, SortHint.unknown)

/-- Loop of `reverseRange_func`. -/
def reverseRangeLoop {α : Type} : Nat → Nat → Nat → (Nat → α) → (Nat → α)
  | 0, _, _, f => f
  | fuel + 1, i, j, f =>
    if i < j then reverseRangeLoop fuel (i + 1) (j - 1) (swapF f i j) else f

/-- `reverseRange_func(data, a, b)`. -/
def reverseRangeGo {α : Type} (f : Nat → α) (a b : Nat) : Nat → α :=
  reverseRangeLoop (b - a) a (b - 1) f

/-- `(*xorshift).Next()`: the xorshift64 generator used by `breakPatterns`,
on `uint64` embedded as `Nat` reduced `% 2^64`. -/
def xorshiftNext (r : Nat) : Nat × Nat :=
  let r1 := (r ^^^ (r <<< 13)) % 2 ^ 64
  let r2 := r1 ^^^ (r1 >>> 7)
  let r3 := (r2 ^^^ (r2 <<< 17)) % 2 ^ 64
  (r3, r3)

/-- `bits.Len(n)`: number of bits of `n` (fuel-indexed so it reduces). -/
def bitsLenAux : Nat → Nat → Nat
  | 0, _ => 0
  | fuel + 1, n => if n = 0 then 0 else bitsLenAux fuel (n / 2) + 1

/-- `bits.Len(uint(n))`. -/
def bitsLen (n : Nat) : Nat := bitsLenAux n n

/-- `nextPowerOfTwo(length)` = `1 << bits.Len(uint(length))`. -/
def nextPowerOfTwo (length : Nat) : Nat := 2 ^ bitsLen length

/-- `breakPatterns_func(data, a, b)`: swaps three middle elements with
pseudo-random positions (xorshift seeded with the length). -/
def breakPatternsGo {α : Type} (f : Nat → α) (a b : Nat) : Nat → α :=
  let length := b - a
  if length ≥ 8 then
    let modulus := nextPowerOfTwo length
    let idx := a + length / 4 * 2 - 1
    let x1 := xorshiftNext length
    let o1 := x1.1 &&& (modulus - 1)
    let o1 := if o1 ≥ length then o1 - length else o1
    let f := swapF f (idx - 1 + 0) (a + o1)
    let x2 := xorshiftNext x1.2
    let o2 := x2.1 &&& (modulus - 1)
    let o2 := if o2 ≥ length then o2 - length else o2
    let f := swapF f (idx - 1 + 1) (a + o2)
    let x3 := xorshiftNext x2.2
    let o3 := x3.1 &&& (modulus - 1)
    let o3 := if o3 ≥ length then o3 - length else o3
    swapF f (idx - 1 + 2) (a + o3)
  else f

/-- `pdqsort_func(data, a, b, limit)` (`maxInsertion = 12`).  The structural
fuel bounds the number of iterations of the outer `for` loop across the whole
recursion; every iteration strictly shrinks `b - a`, so a fuel of `b - a + 1`
never runs out; the fuel-exhaustion branch repeats Go's own `heapSort`
fallback. -/
def pdqsortLoop {α : Type} (κ : α → Nat) :
    Nat → (Nat → α) → Nat → Nat → Nat → Bool → Bool → (Nat → α)
  | 0, f, a, b, _, _, _ => heapSortGo κ a b f
  | fuel + 1, f, a, b, limit, wasBalanced, wasPartitioned =>
    let length := b - a
    if length ≤ 12 then insertionSortGo κ f a b
    else if limit = 0 then heapSortGo κ a b f
    else
      let bp := if wasBalanced = false then (breakPatternsGo f a b, limit - 1) else (f, limit)
      let f1 := bp.1
      let limit1 := bp.2
      let ph := choosePivotGo κ f1 a b
      let rv :=
        if ph.2 = SortHint.decreasing then
          (reverseRangeGo f1 a b, (b - 1) - (ph.1 - a), SortHint.increasing)
        else (f1, ph.1, ph.2)
      let f2 := rv.1
      let pivot := rv.2.1
      let hint := rv.2.2
      let ps :=
        if wasBalanced ∧ wasPartitioned ∧ hint = SortHint.increasing then
          partialInsertionSortGo κ f2 a b
        else (f2, false)
      if ps.2 then ps.1
      else
        let f3 := ps.1
        if 0 < a ∧ ¬ lessF κ f3 (a - 1) pivot then
          let pe := partitionEqualGo κ f3 a b pivot
          pdqsortLoop κ fuel pe.2 pe.1 b limit1 wasBalanced wasPartitioned
        else
          let pt := partitionGo κ f3 a b pivot
          let mid := pt.1
          let alreadyPartitioned := pt.2.1
          let f4 := pt.2.2
          let wasBalanced2 := decide (min (mid - a) (b - mid) ≥ length / 8)
          if mid - a < b - mid then
            let fL := pdqsortLoop κ fuel f4 a mid limit1 true true
            pdqsortLoop κ fuel fL (mid + 1) b limit1 wasBalanced2 alreadyPartitioned
          else
            let fR := pdqsortLoop κ fuel f4 (mid + 1) b limit1 true true
            pdqsortLoop κ fuel fR a mid limit1 wasBalanced2 alreadyPartitioned

/-- `sort.Slice(x, less)`: `pdqsort_func(lessSwap{less, swap}, 0, length,
bits.Len(uint(length)))`, on a list. -/
def sortSliceGo {α : Type} [Inhabited α] (κ : α → Nat) (l : List α) : List α :=
  let f := fun i => l.getD i default
  let g := pdqsortLoop κ (l.length + 1) f 0 l.length (bitsLen l.length) true true
  (List.range l.length).map g

/-- Lines 133-135 of the source: `sort.Slice(claves, func(i, j int) bool {
return obtenerOrdenCampo(claves[i]) < obtenerOrdenCampo(claves[j]) })`. -/
def ordenarClaves (claves : List String) : List String :=
  sortSliceGo obtenerOrdenCampo claves

/-! ## JSON values

`map[string]interface{}` values are embedded as `JVal`.  A JSON number is kept
as its literal text (`raw`): the integers the callers place in maps marshal to
their decimal text, and at this granularity `json.Marshal` re-emits the text
unchanged, which is exactly the behaviour needed by the claims (floating-point
shortening of non-canonical literals such as `1.50` is not modelled).  The
`unsupported` constructor stands for Go values `json.Marshal` rejects
(functions, channels, ...). -/
inductive JVal where
  | null : JVal
  | bool (b : Bool) : JVal
  | num (raw : String) : JVal
  | str (s : String) : JVal
  | arr (elems : List JVal) : JVal
  | obj (fields : List (String × JVal)) : JVal
  | unsupported (goType : String) : JVal

/-- Lowercase hexadecimal digit, as in `encoding/json`'s `"0123456789abcdef"`. -/
def hexDigit (n : Nat) : Char :=
  if n < 10 then Char.ofNat (48 + n) else Char.ofNat (87 + n)

/-- Per-character escaping of `encoding/json`'s string encoder with its default
`escapeHTML = true`: quote, backslash, `\n`, `\r`, `\t` use the short escapes,
other control characters become `\u00xx`, the HTML characters and the line
separators U+2028/U+2029 are escaped, everything else is copied. -/
def escapeChar (c : Char) : List Char :=
  if c = '"' then ['\\', '"']
  else if c = '\\' then ['\\', '\\']
  else if c = '\n' then ['\\', 'n']
  else if c = '\r' then ['\\', 'r']
  else if c = '\t' then ['\\', 't']
  else if c = '<' ∨ c = '>' ∨ c = '&' ∨ c.toNat < 0x20 then
    ['\\', 'u', '0', '0', hexDigit (c.toNat / 16), hexDigit (c.toNat % 16)]
  else if c.toNat = 0x2028 ∨ c.toNat = 0x2029 then
    ['\\', 'u', '2', '0', '2', hexDigit (c.toNat % 16)]
  else [c]

/-- `json.Marshal` of a Go string: the quoted, escaped JSON string literal. -/
def quoteGo (s : String) : String :=
  ⟨'"' :: (s.data.map escapeChar).flatten ++ ['"']⟩

/-- Insert a marshalled field into a key-sorted list (`encoding/json` sorts the
keys of a map with byte-wise `<`, which on valid UTF-8 agrees with the
code-point order used by `String` comparison here). -/
def insertKV (p : String × String) : List (String × String) → List (String × String)
  | [] => [p]
  | q :: qs => if p.1 ≤ q.1 then p :: q :: qs else q :: insertKV p qs

/-- Key-sort of the marshalled fields of a map value. -/
def sortKV : List (String × String) → List (String × String)
  | [] => []
  | p :: ps => insertKV p (sortKV ps)

mutual

/-- `json.Marshal` of a value.  (For map values Go encodes the values in
key-sorted order; encoding is pure, so marshalling them in list order and
sorting the rendered fields yields the same text.) -/
def marshalVal : JVal → Except GoError String
  | .null => Except.ok "null"
  | .bool b => Except.ok (if b then "true" else "false")
  | .num raw => Except.ok raw
  | .str s => Except.ok (quoteGo s)
  | .arr es =>
    match marshalArr es with
    | Except.ok parts => Except.ok ("[" ++ String.intercalate "," parts ++ "]")
    | Except.error e => Except.error e
  | .obj fs =>
    match marshalObj fs with
    | Except.ok kvs =>
      Except.ok
        ("\x7b" ++
          String.intercalate "," ((sortKV kvs).map (fun p => quoteGo p.1 ++ ":" ++ p.2)) ++
          "\x7d")
    | Except.error e => Except.error e
  | .unsupported t => Except.error (GoError.marshalError t)

/-- Marshal the elements of an array value. -/
def marshalArr : List JVal → Except GoError (List String)
  | [] => Except.ok []
  | v :: vs =>
    match marshalVal v, marshalArr vs with
    | Except.ok s, Except.ok ss => Except.ok (s :: ss)
    | Except.error e, _ => Except.error e
    | _, Except.error e => Except.error e

/-- Marshal the fields of an object value (key order handled by `sortKV`). -/
def marshalObj : List (String × JVal) → Except GoError (List (String × String))
  | [] => Except.ok []
  | (k, v) :: fs =>
    match marshalVal v, marshalObj fs with
    | Except.ok s, Except.ok ss => Except.ok ((k, s) :: ss)
    | Except.error e, _ => Except.error e
    | _, Except.error e => Except.error e

end

/-! ## `json.Indent`

`json.Indent(&resultado, buf.Bytes(), "", "  ")` re-renders the compact JSON
assembled by the buffer loop.  Transliterated from `encoding/json`'s
`appendIndent`: token-level characters drive the indentation state machine
(`needIndent`, `depth`); the contents of string literals are copied verbatim
(they are `scanContinue` steps for the scanner); whitespace in the source is
dropped (`scanSkipSpace`; the compact assembly never contains any). -/

/-- Whitespace characters of the JSON scanner. -/
def isWsChar (c : Char) : Bool :=
  c = ' ' ∨ c = '\t' ∨ c = '\n' ∨ c = '\r'

/-- Copy a string literal (after its opening quote) up to and including the
closing quote; escape pairs are copied blindly, as the scanner does. -/
def indentCopyStr : Nat → List Char → List Char × List Char
  | 0, cs => ([], cs)
  | _ + 1, [] => ([], [])
  | fuel + 1, c :: cs =>
    if c = '"' then (['"'], cs)
    else if c = '\\' then
      match cs with
      | [] => (['\\'], [])
      | d :: ds =>
        let r := indentCopyStr fuel ds
        ('\\' :: d :: r.1, r.2)
    else
      let r := indentCopyStr fuel cs
      (c :: r.1, r.2)

/-- `appendNewline(dst, prefix, indent, depth)` with `prefix = ""` and
`indent = "  "`. -/
def indentNewline (depth : Nat) : List Char :=
  '\n' :: (List.replicate depth [' ', ' ']).flatten

/-- The `appendIndent` scan loop. -/
def indentLoop : Nat → Nat → Bool → List Char → List Char
  | 0, _, _, _ => []
  | _ + 1, _, _, [] => []
  | fuel + 1, depth, needIndent, c :: cs =>
    if isWsChar c then indentLoop fuel depth needIndent cs
    else
      let pre := if needIndent ∧ c ≠ '\x7d' ∧ c ≠ ']' then indentNewline (depth + 1) else []
      let depth1 := if needIndent ∧ c ≠ '\x7d' ∧ c ≠ ']' then depth + 1 else depth
      let needIndent1 : Bool := needIndent ∧ (c = '\x7d' ∨ c = ']')
      if c = '\x7b' ∨ c = '[' then pre ++ c :: indentLoop fuel depth1 true cs
      else if c = ',' then
        pre ++ c :: (indentNewline depth1 ++ indentLoop fuel depth1 needIndent1 cs)
      else if c = ':' then pre ++ c :: ' ' :: indentLoop fuel depth1 needIndent1 cs
      else if c = '\x7d' ∨ c = ']' then
        if needIndent1 then pre ++ c :: indentLoop fuel depth1 false cs
        else pre ++ (indentNewline (depth1 - 1) ++ c :: indentLoop fuel (depth1 - 1) false cs)
      else if c = '"' then
        let lit := indentCopyStr fuel cs
        pre ++ c :: (lit.1 ++ indentLoop fuel depth1 needIndent1 lit.2)
      else pre ++ c :: indentLoop fuel depth1 needIndent1 cs

/-- `json.Indent(&resultado, src, "", "  ")` for the valid compact JSON the
buffer loop assembles. -/
def jsonIndent (s : String) : String :=
  ⟨indentLoop (s.length + 1) 0 false s.data⟩

/-! ## `json.Unmarshal` into a `map[string]interface{}`

`json.Unmarshal` first runs the scanner over the whole input (`checkValid`:
optional whitespace, exactly one JSON value, optional whitespace, nothing
else), then decodes; any scan failure is a `*SyntaxError`, and a valid value
whose top level is not an object and not `null` is an `*UnmarshalTypeError`
(`null` leaves the map `nil`, i.e. empty).  Both phases are combined in one
recursive-descent pass below: `none` is a scan failure; the value grammar,
string escapes (including the scanner's rejection of raw control characters,
`\uXXXX` with surrogate-pair combination and U+FFFD for unpaired surrogates)
and number grammar follow the scanner and `unquoteBytes`.  Objects decode with
Go map assignment semantics (a repeated key overwrites its value).  Input is
modelled at the level of Unicode text, as `encoding/json` assumes valid UTF-8.
The fuel (one unit per character, plus one) strictly exceeds the recursion
depth, every step of which consumes input. -/

/-- Skip JSON whitespace. -/
def skipWs : List Char → List Char
  | [] => []
  | c :: cs => if isWsChar c then skipWs cs else c :: cs

/-- Hex digit value accepted by `getu4` (both cases). -/
def hexVal (c : Char) : Option Nat :=
  if '0' ≤ c ∧ c ≤ '9' then some (c.toNat - 48)
  else if 'a' ≤ c ∧ c ≤ 'f' then some (c.toNat - 87)
  else if 'A' ≤ c ∧ c ≤ 'F' then some (c.toNat - 70)
  else none

/-- `getu4`: four hex digits after `\u`. -/
def getu4 : List Char → Option (Nat × List Char)
  | c1 :: c2 :: c3 :: c4 :: rest =>
    match hexVal c1, hexVal c2, hexVal c3, hexVal c4 with
    | some h1, some h2, some h3, some h4 =>
      some (((h1 * 16 + h2) * 16 + h3) * 16 + h4, rest)
    | _, _, _, _ => none
  | _ => none

/-- String literal body (after the opening quote), per the scanner's string
states and `unquoteBytes`.  Produces the decoded characters. -/
def parseStrAux : Nat → List Char → List Char → Option (String × List Char)
  | 0, _, _ => none
  | _ + 1, _, [] => none
  | fuel + 1, acc, c :: cs =>
    if c = '"' then some (⟨acc.reverse⟩, cs)
    else if c = '\\' then
      match cs with
      | [] => none
      | e :: cs1 =>
        if e = '"' then parseStrAux fuel ('"' :: acc) cs1
        else if e = '\\' then parseStrAux fuel ('\\' :: acc) cs1
        else if e = '/' then parseStrAux fuel ('/' :: acc) cs1
        else if e = 'b' then parseStrAux fuel (Char.ofNat 8 :: acc) cs1
        else if e = 'f' then parseStrAux fuel (Char.ofNat 12 :: acc) cs1
        else if e = 'n' then parseStrAux fuel ('\n' :: acc) cs1
        else if e = 'r' then parseStrAux fuel ('\r' :: acc) cs1
        else if e = 't' then parseStrAux fuel ('\t' :: acc) cs1
        else if e = 'u' then
          match getu4 cs1 with
          | none => none
          | some (rr, cs2) =>
            if 0xD800 ≤ rr ∧ rr < 0xDC00 then
              match cs2 with
              | '\\' :: 'u' :: cs3 =>
                match getu4 cs3 with
                | some (rr1, cs4) =>
                  if 0xDC00 ≤ rr1 ∧ rr1 < 0xE000 then
                    parseStrAux fuel
                      (Char.ofNat (0x10000 + (rr - 0xD800) * 0x400 + (rr1 - 0xDC00)) :: acc)
                      cs4
                  else parseStrAux fuel (Char.ofNat 0xFFFD :: acc) cs2
                | none => parseStrAux fuel (Char.ofNat 0xFFFD :: acc) cs2
              | _ => parseStrAux fuel (Char.ofNat 0xFFFD :: acc) cs2
            else if 0xDC00 ≤ rr ∧ rr < 0xE000 then
              parseStrAux fuel (Char.ofNat 0xFFFD :: acc) cs2
            else parseStrAux fuel (Char.ofNat rr :: acc) cs2
        else none
    else if c.toNat < 0x20 then none
    else parseStrAux fuel (c :: acc) cs

/-- Leading decimal digits (greedy). -/
def takeDigits : List Char → List Char × List Char
  | [] => ([], [])
  | c :: cs =>
    if '0' ≤ c ∧ c ≤ '9' then
      let r := takeDigits cs
      (c :: r.1, r.2)
    else ([], c :: cs)

/-- JSON number literal per the scanner's number states; returns the raw
literal text. -/
def parseNumRaw (cs : List Char) : Option (List Char × List Char) :=
  let neg : List Char × List Char :=
    match cs with
    | '-' :: rest => (['-'], rest)
    | _ => ([], cs)
  match neg.2 with
  | [] => none
  | c :: rest =>
    if c = '0' then
      let intPart := (neg.1 ++ ['0'], rest)
      parseNumFrac intPart
    else if '1' ≤ c ∧ c ≤ '9' then
      let d := takeDigits rest
      parseNumFrac (neg.1 ++ c :: d.1, d.2)
    else none
where
  /-- Optional fraction then optional exponent. -/
  parseNumFrac (p : List Char × List Char) : Option (List Char × List Char) :=
    let afterFrac : Option (List Char × List Char) :=
      match p.2 with
      | '.' :: rest =>
        match takeDigits rest with
        | ([], _) => none
        | (ds, rest1) => some (p.1 ++ '.' :: ds, rest1)
      | _ => some p
    match afterFrac with
    | none => none
    | some q =>
      match q.2 with
      | 'e' :: rest => parseNumExp q.1 'e' rest
      | 'E' :: rest => parseNumExp q.1 'E' rest
      | _ => some q
  /-- Exponent part after `e`/`E`. -/
  parseNumExp (acc : List Char) (e : Char) (rest : List Char) :
      Option (List Char × List Char) :=
    let sgn : List Char × List Char :=
      match rest with
      | '+' :: r => (['+'], r)
      | '-' :: r => (['-'], r)
      | _ => ([], rest)
    match takeDigits sgn.2 with
    | ([], _) => none
    | (ds, rest1) => some (acc ++ e :: (sgn.1 ++ ds), rest1)

/-- Go map assignment `m[k] = v` for decoded object fields. -/
def assignJ (m : List (String × JVal)) (k : String) (v : JVal) : List (String × JVal) :=
  if m.any (fun p => p.1 == k) then
    m.map (fun p => if p.1 == k then (k, v) else p)
  else
    m ++ [(k, v)]

mutual

/-- One JSON value (with leading whitespace), returning it and the rest. -/
def parseVal : Nat → List Char → Option (JVal × List Char)
  | 0, _ => none
  | fuel + 1, cs =>
    match skipWs cs with
    | [] => none
    | c :: cs1 =>
      if c = 'n' then
        match cs1 with
        | 'u' :: 'l' :: 'l' :: rest => some (JVal.null, rest)
        | _ => none
      else if c = 't' then
        match cs1 with
        | 'r' :: 'u' :: 'e' :: rest => some (JVal.bool true, rest)
        | _ => none
      else if c = 'f' then
        match cs1 with
        | 'a' :: 'l' :: 's' :: 'e' :: rest => some (JVal.bool false, rest)
        | _ => none
      else if c = '"' then
        match parseStrAux fuel [] cs1 with
        | some (s, rest) => some (JVal.str s, rest)
        | none => none
      else if c = '\x7b' then
        match skipWs cs1 with
        | '\x7d' :: rest => some (JVal.obj [], rest)
        | cs2 =>
          match parseFields fuel cs2 with
          | some (ps, rest) =>
            some (JVal.obj (ps.foldl (fun m p => assignJ m p.1 p.2) []), rest)
          | none => none
      else if c = '[' then
        match skipWs cs1 with
        | ']' :: rest => some (JVal.arr [], rest)
        | cs2 =>
          match parseElems fuel cs2 with
          | some (vs, rest) => some (JVal.arr vs, rest)
          | none => none
      else if c = '-' ∨ ('0' ≤ c ∧ c ≤ '9') then
        match parseNumRaw (c :: cs1) with
        | some (raw, rest) => some (JVal.num ⟨raw⟩, rest)
        | none => none
      else none

/-- Fields of a non-empty object: `"key" ws : value ws (, ws ...)* ws }`. -/
def parseFields : Nat → List Char → Option (List (String × JVal) × List Char)
  | 0, _ => none
  | fuel + 1, cs =>
    match cs with
    | '"' :: cs1 =>
      match parseStrAux fuel [] cs1 with
      | some (k, cs2) =>
        match skipWs cs2 with
        | ':' :: cs3 =>
          match parseVal fuel cs3 with
          | some (v, cs4) =>
            match skipWs cs4 with
            | ',' :: cs5 =>
              match parseFields fuel (skipWs cs5) with
              | some (ps, rest) => some ((k, v) :: ps, rest)
              | none => none
            | '\x7d' :: cs5 => some ([(k, v)], cs5)
            | _ => none
          | none => none
        | _ => none
      | none => none
    | _ => none

/-- Elements of a non-empty array: `value ws (, value ws)* ]`. -/
def parseElems : Nat → List Char → Option (List JVal × List Char)
  | 0, _ => none
  | fuel + 1, cs =>
    match parseVal fuel cs with
    | some (v, cs1) =>
      match skipWs cs1 with
      | ',' :: cs2 =>
        match parseElems fuel cs2 with
        | some (vs, rest) => some (v :: vs, rest)
        | none => none
      | ']' :: cs2 => some ([v], cs2)
      | _ => none
    | none => none

end

/-- `json.Unmarshal([]byte(v), &datos)` for `datos : map[string]interface{}`
(lines 113-117): scan the whole text, then require an object (or `null`, which
leaves the map empty). -/
def unmarshalMap (s : String) : Except GoError (List (String × JVal)) :=
  match parseVal (s.length + 1) s.data with
  | none => Except.error GoError.syntaxError
  | some (v, rest) =>
    match skipWs rest with
    | _ :: _ => Except.error GoError.syntaxError
    | [] =>
      match v with
      | JVal.obj fields => Except.ok fields
      | JVal.null => Except.ok []
      | JVal.bool _ => Except.error (GoError.typeError "bool")
      | JVal.num _ => Except.error (GoError.typeError "float64")
      | JVal.str _ => Except.error (GoError.typeError "string")
      | JVal.arr _ => Except.error (GoError.typeError "[]interface \x7b\x7d")
      | JVal.unsupported t => Except.error (GoError.typeError t)

/-! ## `OrdenarJSON` (lines 106-166) -/

/-- The `interface{}` argument of `OrdenarJSON`: the `switch` at lines 112-124
distinguishes a `string`, a `map[string]interface{}` (an association list in
enumeration order, see the module comment) and everything else, of which only
the Go type name matters (`%T`). -/
inductive GoInput where
  | str (s : String) : GoInput
  | map (datos : List (String × JVal)) : GoInput
  | other (goType : String) : GoInput

/-- One iteration of the buffer loop (lines 140-157): `json.Marshal(clave)`,
a colon, and `json.Marshal(datos[clave])`.  A Go map read of an absent key
yields the zero value `nil`, which marshals as `null` (unreachable here, since
the keys come from the map). -/
def renderPair (datos : List (String × JVal)) (clave : String) : Except GoError String :=
  match marshalVal ((datos.lookup clave).getD JVal.null) with
  | Except.ok vtxt => Except.ok (quoteGo clave ++ ":" ++ vtxt)
  | Except.error e => Except.error e

/-- The buffer loop over the sorted keys. -/
def renderPairs (datos : List (String × JVal)) : List String → Except GoError (List String)
  | [] => Except.ok []
  | clave :: claves =>
    match renderPair datos clave, renderPairs datos claves with
    | Except.ok s, Except.ok ss => Except.ok (s :: ss)
    | Except.error e, _ => Except.error e
    | _, Except.error e => Except.error e

/-- Lines 127-165 for an already-normalized map: enumerate the keys, sort them
with `sort.Slice` by `obtenerOrdenCampo`, assemble `{"k":v,...}` and indent. -/
def ordenarDatos (datos : List (String × JVal)) : Except GoError String :=
  let claves := datos.map Prod.fst
  let claves2 := ordenarClaves claves
  match renderPairs datos claves2 with
  | Except.error e => Except.error e
  | Except.ok parts =>
    Except.ok (jsonIndent ("\x7b" ++ String.intercalate "," parts ++ "\x7d"))

/-- `OrdenarJSON` (lines 108-166). -/
def OrdenarJSON : GoInput → Except GoError String
  | GoInput.str s =>
    match unmarshalMap s with
    | Except.error e => Except.error e
    | Except.ok datos => ordenarDatos datos
  | GoInput.map datos => ordenarDatos datos
  | GoInput.other t => Except.error (GoError.unsupportedInput t)

/-! ## `OrdenarDocumentoMetadata` (lines 13-31, 79-105) -/

/-- The `DocumentMetadata` struct (lines 13-31): seventeen string fields with
JSON tags. -/
structure DocumentMetadata where
  tipoDocumento : String
  razonSocialCliente : String
  rutCliente : String
  estadoVisado : String
  estadoVigencia : String
  fechaCarga : String
  nombreDoc : String
  categorias : String
  subCategorias : String
  origen : String
  relacion : String
  fechaTerminoVigencia : String
  cmTitle : String
  cmVersionType : String
  cmVersionLabel : String
  cmDescription : String
  observaciones : String

/-- The reflection loop's view of the struct: the fields in declaration order,
each with its `json` tag (none of the tags is empty, so the
`if jsonTag == "" { continue }` guard never fires). -/
def camposDe (m : DocumentMetadata) : List (String × String) :=
  [ ("tanner:tipo-documento", m.tipoDocumento)
  , ("tanner:razon-social-cliente", m.razonSocialCliente)
  , ("tanner:rut-cliente", m.rutCliente)
  , ("tanner:estado-visado", m.estadoVisado)
  , ("tanner:estado-vigencia", m.estadoVigencia)
  , ("tanner:fecha-carga", m.fechaCarga)
  , ("tanner:nombre-doc", m.nombreDoc)
  , ("tanner:categorias", m.categorias)
  , ("tanner:sub-categorias", m.subCategorias)
  , ("tanner:origen", m.origen)
  , ("tanner:relacion", m.relacion)
  , ("tanner:fecha-termino-vigencia", m.fechaTerminoVigencia)
  , ("cm:title", m.cmTitle)
  , ("cm:versionType", m.cmVersionType)
  , ("cm:versionLabel", m.cmVersionLabel)
  , ("cm:description", m.cmDescription)
  , ("tanner:observaciones", m.observaciones) ]

/-- Lines 80-101: build `datos`, keeping only the fields whose value is not
the empty string (`datos[jsonTag] = field.String()`). -/
def datosDeMetadata (m : DocumentMetadata) : List (String × JVal) :=
  (camposDe m).foldl
    (fun d p => if p.2 ≠ "" then assignJ d p.1 (JVal.str p.2) else d) []

/-- `OrdenarDocumentoMetadata` (lines 79-105). -/
def OrdenarDocumentoMetadata (m : DocumentMetadata) : Except GoError String :=
  OrdenarJSON (GoInput.map (datosDeMetadata m))

/-! ## Predicates used to state the claims -/

/-- The input text parses as a single JSON object (with nothing but whitespace
around it). -/
def isJsonObjectText (s : String) : Bool :=
  match parseVal (s.length + 1) s.data with
  | some (JVal.obj _, rest) => (skipWs rest).isEmpty
  | _ => false

/-- The input text parses as the single JSON literal `null`. -/
def isJsonNullText (s : String) : Bool :=
  match parseVal (s.length + 1) s.data with
  | some (JVal.null, rest) => (skipWs rest).isEmpty
  | _ => false

/-! ## Claims settled by direct evaluation -/

/-- C10: for the input text `"null"` (valid JSON, but not a JSON object),
`OrdenarJSON` returns the empty-object output `"{}"` with no error:
unmarshalling `null` succeeds and leaves the map empty, so the key loop runs
zero times and `json.Indent` leaves `{}` unchanged. -/
theorem C10_null_input_yields_empty_object :
    OrdenarJSON (GoInput.str "null") = Except.ok "\x7b\x7d" := rfl

/-- C6: for every input value that is neither a string nor a string-keyed
mapping, `OrdenarJSON` fails with the unsupported-input error whose message
names the offending type (`fmt.Errorf("tipo de entrada no soportado: %T",
input)`), before any ordering logic runs (the `default` branch returns
immediately). -/
theorem C6_unsupported_input_rejected (goType : String) :
    OrdenarJSON (GoInput.other goType) = Except.error (GoError.unsupportedInput goType) :=
  rfl

/-- C8: `obtenerOrdenCampo` returns the zero-based index of a name present in
the priority table, and the table's length (the sentinel rank, 17) for a name
absent from it.  The function is pure by construction in this embedding, so
re-querying is the same application. -/
theorem C8_obtenerOrdenCampo_spec :
    OrdenCampos.length = 17 ∧
    (∀ i, i < OrdenCampos.length → obtenerOrdenCampo (OrdenCampos.getD i "") = i) ∧
    (∀ campo : String, campo ∉ OrdenCampos → obtenerOrdenCampo campo = 17) := by
  refine ⟨rfl, by decide, ?_⟩
  intro campo h
  exact obtenerOrdenCampo_of_not_mem h

/-- Witness for C8 at the concrete inputs `"tanner:rut-cliente"` (rank 2) and
the unlisted `"zzz"` (sentinel 17). -/
theorem C8_obtenerOrdenCampo_spec_witness :
    obtenerOrdenCampo (OrdenCampos.getD 2 "") = 2 ∧ obtenerOrdenCampo "zzz" = 17 :=
  ⟨C8_obtenerOrdenCampo_spec.2.1 2 (by decide),
   C8_obtenerOrdenCampo_spec.2.2 "zzz" (by decide)⟩

/-- C5, counterexample: the text `"null"` is not a valid single JSON object,
yet `OrdenarJSON` does not return an error: it succeeds with output `"{}"`
(unmarshalling `null` into the map succeeds and leaves it empty).  So "any
text that is not a valid single JSON object yields a ParseError" is false as
stated. -/
theorem C5_counterexample_null_accepted :
    isJsonObjectText "null" = false ∧ OrdenarJSON (GoInput.str "null") = Except.ok "\x7b\x7d" :=
  ⟨rfl, rfl⟩

/-- C5, amended: every string input that is neither a valid single JSON object
nor the JSON literal `null` makes `OrdenarJSON` return an error — the scan or
decode error of `json.Unmarshal`, propagated verbatim — together with the
empty result string (the `Except.error` embedding of the source's
`return "", err`); no partial output exists on any failure. -/
theorem C5_amended_invalid_input_errors (s : String)
    (h1 : isJsonObjectText s = false) (h2 : isJsonNullText s = false) :
    ∃ e, OrdenarJSON (GoInput.str s) = Except.error e := by
  unfold isJsonObjectText at h1
  unfold isJsonNullText at h2
  match hp : parseVal (s.length + 1) s.data with
  | none => exact ⟨GoError.syntaxError, by simp [OrdenarJSON, unmarshalMap, hp]⟩
  | some (v, rest) =>
    rw [hp] at h1 h2
    match hw : skipWs rest with
    | w :: ws => exact ⟨GoError.syntaxError, by simp [OrdenarJSON, unmarshalMap, hp, hw]⟩
    | [] =>
      match v with
      | JVal.obj fields => simp [hw] at h1
      | JVal.null => simp [hw] at h2
      | JVal.bool b =>
        exact ⟨GoError.typeError "bool", by simp [OrdenarJSON, unmarshalMap, hp, hw]⟩
      | JVal.num r =>
        exact ⟨GoError.typeError "float64", by simp [OrdenarJSON, unmarshalMap, hp, hw]⟩
      | JVal.str t =>
        exact ⟨GoError.typeError "string", by simp [OrdenarJSON, unmarshalMap, hp, hw]⟩
      | JVal.arr es =>
        exact ⟨GoError.typeError "[]interface \x7b\x7d",
          by simp [OrdenarJSON, unmarshalMap, hp, hw]⟩
      | JVal.unsupported t =>
        exact ⟨GoError.typeError t, by simp [OrdenarJSON, unmarshalMap, hp, hw]⟩

/-- Witness for C5 (amended) at the truncated text `{"type": "t"` of the
spec's scenario 4. -/
theorem C5_amended_invalid_input_errors_witness :
    ∃ e, OrdenarJSON (GoInput.str "\x7b\"type\": \"t\"") = Except.error e :=
  C5_amended_invalid_input_errors "\x7b\"type\": \"t\"" (by decide) (by decide)

/-! ## C9: the record-to-mapping adapter -/

theorem assignJ_of_not_mem {m : List (String × JVal)} {k : String} (v : JVal)
    (h : ∀ p ∈ m, p.1 ≠ k) : assignJ m k v = m ++ [(k, v)] := by
  unfold assignJ
  have hany : m.any (fun p => p.1 == k) = false := by
    simp only [List.any_eq_false]
    intro p hp
    simp [beq_eq_false_iff_ne.mpr (h p hp)]
  rw [hany]
  simp

theorem foldAssign_eq_filter (l : List (String × String)) (acc : List (String × JVal))
    (hnd : (l.map Prod.fst).Nodup) (hacc : ∀ p ∈ acc, ∀ q ∈ l, p.1 ≠ q.1) :
    l.foldl (fun d p => if p.2 ≠ "" then assignJ d p.1 (JVal.str p.2) else d) acc =
      acc ++ (l.filter (fun p => p.2 ≠ "")).map (fun p => (p.1, JVal.str p.2)) := by
  induction l generalizing acc with
  | nil => simp
  | cons q l ih =>
    simp only [List.map_cons, List.nodup_cons] at hnd
    simp only [List.foldl_cons]
    by_cases hq : q.2 ≠ ""
    · rw [if_pos hq]
      rw [assignJ_of_not_mem _ (fun p hp => hacc p hp q (List.mem_cons_self q l))]
      rw [ih _ hnd.2 ?_]
      · simp [List.filter_cons, hq]
      · intro p hp r hr
        rcases List.mem_append.mp hp with hp1 | hp2
        · exact hacc p hp1 r (List.mem_cons_of_mem q hr)
        · simp only [List.mem_singleton] at hp2
          subst hp2
          intro hk
          exact hnd.1 (hk ▸ List.mem_map_of_mem Prod.fst hr)
    · rw [if_neg hq]
      rw [ih _ hnd.2 (fun p hp r hr => hacc p hp r (List.mem_cons_of_mem q hr))]
      simp only [ne_eq, Decidable.not_not] at hq
      simp [List.filter_cons, hq]

/-- C9: the adapter builds exactly the mapping of the non-empty fields, keyed
by each field's declared JSON tag and in declaration order: the result of the
reflection loop equals filtering the (tag, value) view of the struct by
non-emptiness. -/
theorem C9_metadata_adapter_spec (m : DocumentMetadata) :
    datosDeMetadata m =
      ((camposDe m).filter (fun p => p.2 ≠ "")).map (fun p => (p.1, JVal.str p.2)) := by
  unfold datosDeMetadata
  rw [foldAssign_eq_filter]
  · simp
  · show (List.map Prod.fst (camposDe m)).Nodup
    have : List.map Prod.fst (camposDe m) = OrdenCampos := rfl
    rw [this]
    decide
  · intro p hp
    simp at hp

/-! ## C1 and C2: counterexamples from the unstable sort and the map
enumeration order -/

/-- A 13-entry input mapping, enumerated with the two unranked keys first and
eleven ranked keys afterwards.  Thirteen keys exceed pdqsort's
`maxInsertion = 12` cutoff, so `sort.Slice` partitions instead of insertion
sorting, and the partition swaps the tied unranked keys. -/
def entradas13 : List (String × JVal) :=
  [ ("extra:uno", JVal.num "1"), ("extra:dos", JVal.num "2")
  , ("tanner:tipo-documento", JVal.str "t"), ("tanner:razon-social-cliente", JVal.str "r")
  , ("tanner:rut-cliente", JVal.str "c"), ("tanner:estado-visado", JVal.str "v")
  , ("tanner:estado-vigencia", JVal.str "g"), ("tanner:fecha-carga", JVal.str "f")
  , ("tanner:nombre-doc", JVal.str "n"), ("tanner:categorias", JVal.str "k")
  , ("tanner:sub-categorias", JVal.str "s"), ("tanner:origen", JVal.str "o")
  , ("tanner:relacion", JVal.str "l") ]

/-- C1, counterexample: in the 13-key input `entradas13` the two unranked keys
`extra:uno` and `extra:dos` are enumerated in that order, yet the output lists
`extra:dos` before `extra:uno`: `sort.Slice` is not stable, so equal sentinel
ranks do not keep their input order.  (All unranked keys do end up after all
ranked keys; only the stability half of the claim fails.) -/
theorem C1_counterexample_unstable_at_13 :
    "extra:uno" ∉ OrdenCampos ∧ "extra:dos" ∉ OrdenCampos ∧
    List.indexOf "extra:uno" (entradas13.map Prod.fst) <
      List.indexOf "extra:dos" (entradas13.map Prod.fst) ∧
    List.indexOf "extra:dos" (ordenarClaves (entradas13.map Prod.fst)) <
      List.indexOf "extra:uno" (ordenarClaves (entradas13.map Prod.fst)) ∧
    OrdenarJSON (GoInput.map entradas13) =
      Except.ok
        ("\x7b\n  \"tanner:tipo-documento\": \"t\",\n  \"tanner:razon-social-cliente\": \"r\",\n  \"tanner:rut-cliente\": \"c\",\n  \"tanner:estado-visado\": \"v\",\n  \"tanner:estado-vigencia\": \"g\",\n  \"tanner:fecha-carga\": \"f\",\n  \"tanner:nombre-doc\": \"n\",\n  \"tanner:categorias\": \"k\",\n  \"tanner:sub-categorias\": \"s\",\n  \"tanner:origen\": \"o\",\n  \"tanner:relacion\": \"l\",\n  \"extra:dos\": 2,\n  \"extra:uno\": 1\n\x7d") := by
  refine ⟨by decide, by decide, by decide, by decide, ?_⟩
  set_option maxRecDepth 10000 in rfl

/-- C2, counterexample: the same two-entry mapping, enumerated by the Go map
in two different orders (Go fixes no iteration order), yields two different
output texts, because the two keys are unranked and the comparator ties.  So
byte-identical output across calls with a fixed input mapping fails. -/
theorem C2_counterexample_enumeration_dependent :
    List.Perm [("zzz", JVal.num "1"), ("aaa", JVal.num "2")]
      [("aaa", JVal.num "2"), ("zzz", JVal.num "1")] ∧
    OrdenarJSON (GoInput.map [("zzz", JVal.num "1"), ("aaa", JVal.num "2")]) =
      Except.ok "\x7b\n  \"zzz\": 1,\n  \"aaa\": 2\n\x7d" ∧
    OrdenarJSON (GoInput.map [("aaa", JVal.num "2"), ("zzz", JVal.num "1")]) =
      Except.ok "\x7b\n  \"aaa\": 2,\n  \"zzz\": 1\n\x7d" ∧
    ("\x7b\n  \"zzz\": 1,\n  \"aaa\": 2\n\x7d" : String) ≠
      "\x7b\n  \"aaa\": 2,\n  \"zzz\": 1\n\x7d" := by
  refine ⟨List.Perm.swap _ _ _, rfl, rfl, by decide⟩

/-! ## Correctness of the sort model

`Rearranges a b f g` states that `g` is `f` with positions permuted inside
`[a, b)` only — the shape of every mutation the sort performs.  `SortedRange`
is non-decreasing key order on `[a, b)`. -/

def Rearranges {α : Type} (a b : Nat) (f g : Nat → α) : Prop :=
  ∃ σ : Equiv.Perm Nat, (∀ k, k < a ∨ b ≤ k → σ k = k) ∧ ∀ k, g k = f (σ k)

def SortedRange {α : Type} (κ : α → Nat) (f : Nat → α) (a b : Nat) : Prop :=
  ∀ i j, a ≤ i → i < j → j < b → κ (f i) ≤ κ (f j)

theorem rearranges_refl {α : Type} (a b : Nat) (f : Nat → α) : Rearranges a b f f :=
  ⟨Equiv.refl Nat, fun _ _ => rfl, fun _ => rfl⟩

theorem rearranges_trans {α : Type} {a b : Nat} {f g h : Nat → α}
    (h1 : Rearranges a b f g) (h2 : Rearranges a b g h) : Rearranges a b f h := by
  obtain ⟨σ, hσ, hfg⟩ := h1
  obtain ⟨τ, hτ, hgh⟩ := h2
  exact ⟨σ * τ, fun k hk => by simp [Equiv.Perm.mul_apply, hτ k hk, hσ k hk],
    fun k => by simp [Equiv.Perm.mul_apply, hgh k, hfg (τ k)]⟩

theorem rearranges_mono {α : Type} {a b a' b' : Nat} {f g : Nat → α}
    (h : Rearranges a b f g) (ha : a' ≤ a) (hb : b ≤ b') : Rearranges a' b' f g := by
  obtain ⟨σ, hσ, hfg⟩ := h
  exact ⟨σ, fun k hk => hσ k (by omega), hfg⟩

theorem swapF_rearranges {α : Type} {a b i j : Nat} (f : Nat → α)
    (hi : a ≤ i) (hi' : i < b) (hj : a ≤ j) (hj' : j < b) :
    Rearranges a b f (swapF f i j) := by
  refine ⟨Equiv.swap i j, fun k hk => ?_, fun k => ?_⟩
  · exact Equiv.swap_apply_of_ne_of_ne (by omega) (by omega)
  · unfold swapF
    by_cases h1 : k = i
    · subst h1
      simp [Equiv.swap_apply_left]
    · by_cases h2 : k = j
      · subst h2
        simp [Equiv.swap_apply_right, h1]
      · simp [h1, h2, Equiv.swap_apply_of_ne_of_ne h1 h2]

theorem swapF_fst {α : Type} (f : Nat → α) (i j : Nat) : swapF f i j i = f j := by
  simp [swapF]

theorem swapF_snd {α : Type} (f : Nat → α) (i j : Nat) : swapF f i j j = f i := by
  unfold swapF
  by_cases h : j = i
  · subst h
    simp
  · simp [h]

theorem swapF_other {α : Type} (f : Nat → α) {i j k : Nat} (h1 : k ≠ i) (h2 : k ≠ j) :
    swapF f i j k = f k := by
  simp [swapF, h1, h2]

theorem rearranges_outside {α : Type} {a b : Nat} {f g : Nat → α}
    (h : Rearranges a b f g) {k : Nat} (hk : k < a ∨ b ≤ k) : g k = f k := by
  obtain ⟨σ, hσ, hfg⟩ := h
  rw [hfg k, hσ k hk]

theorem rearranges_maps_into {α : Type} {a b : Nat} {f g : Nat → α}
    (h : Rearranges a b f g) {k : Nat} (hk1 : a ≤ k) (hk2 : k < b) :
    ∃ k', a ≤ k' ∧ k' < b ∧ g k = f k' := by
  obtain ⟨σ, hσ, hfg⟩ := h
  refine ⟨σ k, ?_, ?_, hfg k⟩
  · by_contra hlt
    push_neg at hlt
    have : σ (σ k) = σ k := hσ (σ k) (Or.inl hlt)
    have := σ.injective this
    omega
  · by_contra hge
    push_neg at hge
    have : σ (σ k) = σ k := hσ (σ k) (Or.inr hge)
    have := σ.injective this
    omega

theorem lessF_iff {α : Type} (κ : α → Nat) (f : Nat → α) (i j : Nat) :
    lessF κ f i j = true ↔ κ (f i) < κ (f j) := by
  simp [lessF]

/-! ### Insertion sort -/

theorem insSortInner_spec {α : Type} (κ : α → Nat) (a c : Nat) :
    ∀ (pos : Nat) (f : Nat → α), pos < c → a ≤ pos →
    (∀ p q, a ≤ p → p < q → q < c → p ≠ pos → q ≠ pos → κ (f p) ≤ κ (f q)) →
    (∀ m, pos < m → m < c → κ (f pos) ≤ κ (f m)) →
    SortedRange κ (insSortInner κ a pos f) a c ∧
      Rearranges a c f (insSortInner κ a pos f) := by
  intro pos
  induction pos with
  | zero =>
    intro f hc ha hpair habove
    refine ⟨?_, rearranges_refl a c f⟩
    intro i j hi hij hjc
    show κ (f i) ≤ κ (f j)
    by_cases hi0 : i = 0
    · subst hi0
      exact habove j hij hjc
    · exact hpair i j hi hij hjc hi0 (by omega)
  | succ p ih =>
    intro f hc ha hpair habove
    unfold insSortInner
    by_cases hguard : a < p + 1 ∧ lessF κ f (p + 1) p
    · rw [if_pos hguard]
      obtain ⟨hap, hless⟩ := hguard
      rw [lessF_iff] at hless
      have hswap : Rearranges a c f (swapF f (p + 1) p) :=
        swapF_rearranges f (by omega) hc (by omega) (by omega)
      have hres := ih (swapF f (p + 1) p) (by omega) (by omega) ?_ ?_
      · exact ⟨hres.1, rearranges_trans hswap hres.2⟩
      · -- pairs avoiding the new position p stay sorted
        intro q r hq hqr hrc hqp hrp
        by_cases hq1 : q = p + 1
        · subst hq1
          rw [swapF_fst, swapF_other f (by omega) hrp]
          exact hpair p r (by omega) (by omega) hrc (by omega) (by omega)
        · by_cases hr1 : r = p + 1
          · subst hr1
            rw [swapF_fst, swapF_other f hq1 hqp]
            exact hpair q p hq (by omega) (by omega) hq1 (by omega)
          · rw [swapF_other f hq1 hqp, swapF_other f hr1 hrp]
            exact hpair q r hq hqr hrc hq1 hr1
      · -- the moved element is below everything above p
        intro m hpm hmc
        rw [swapF_snd]
        by_cases hm1 : m = p + 1
        · subst hm1
          rw [swapF_fst]
          exact le_of_lt hless
        · rw [swapF_other f hm1 (by omega)]
          exact habove m (by omega) hmc
    · rw [if_neg hguard]
      refine ⟨?_, rearranges_refl a c f⟩
      intro i j hi hij hjc
      show κ (f i) ≤ κ (f j)
      rcases Decidable.not_and_iff_or_not.mp hguard with hno | hnless
      · -- p + 1 ≤ a: every position in range is above or equal to p + 1
        by_cases hip : i = p + 1
        · subst hip
          exact habove j hij hjc
        · by_cases hjp : j = p + 1
          · subst hjp
            omega
          · exact hpair i j hi hij hjc hip hjp
      · have hple : κ (f p) ≤ κ (f (p + 1)) := by
          have := (not_congr (lessF_iff κ f (p + 1) p)).mp hnless
          omega
        by_cases hip : i = p + 1
        · subst hip
          exact habove j hij hjc
        · by_cases hjp : j = p + 1
          · subst hjp
            by_cases hipp : i = p
            · exact hipp ▸ hple
            · exact le_trans (hpair i p hi (by omega) (by omega) hip (by omega)) hple
          · exact hpair i j hi hij hjc hip hjp

theorem insSortOuter_spec {α : Type} (κ : α → Nat) (a b : Nat) :
    ∀ (fuel i : Nat) (f : Nat → α), b ≤ i + fuel → a ≤ i →
    SortedRange κ f a i →
    SortedRange κ (insSortOuter κ a b fuel i f) a b ∧
      Rearranges a b f (insSortOuter κ a b fuel i f) := by
  intro fuel
  induction fuel with
  | zero =>
    intro i f hfuel ha hsorted
    refine ⟨fun p q hp hpq hqb => hsorted p q hp hpq (by omega), rearranges_refl a b f⟩
  | succ fl ih =>
    intro i f hfuel ha hsorted
    unfold insSortOuter
    by_cases hib : i < b
    · rw [if_pos hib]
      have hinner := insSortInner_spec κ a (i + 1) i f (by omega) ha
        (fun p q hp hpq hq hpne hqne => hsorted p q hp hpq (by omega))
        (fun m hm hm' => by omega)
      have hrest := ih (i + 1) (insSortInner κ a i f) (by omega) (by omega) ?_
      · exact ⟨hrest.1,
          rearranges_trans (rearranges_mono hinner.2 le_rfl (by omega)) hrest.2⟩
      · exact hinner.1
    · rw [if_neg hib]
      refine ⟨fun p q hp hpq hqb => hsorted p q hp hpq (by omega), rearranges_refl a b f⟩

theorem insertionSortGo_spec {α : Type} (κ : α → Nat) (f : Nat → α) (a b : Nat) :
    SortedRange κ (insertionSortGo κ f a b) a b ∧
      Rearranges a b f (insertionSortGo κ f a b) := by
  unfold insertionSortGo
  exact insSortOuter_spec κ a b (b - a) (a + 1) f (by omega) (by omega)
    (fun p q hp hpq hq => by omega)

/-! ### reverseRange, breakPatterns, choosePivot -/

theorem reverseRangeLoop_rearranges {α : Type} (a b : Nat) :
    ∀ (fuel i j : Nat) (f : Nat → α), a ≤ i → j < b →
    Rearranges a b f (reverseRangeLoop fuel i j f) := by
  intro fuel
  induction fuel with
  | zero => exact fun i j f _ _ => rearranges_refl a b f
  | succ fl ih =>
    intro i j f hi hj
    unfold reverseRangeLoop
    by_cases hij : i < j
    · rw [if_pos hij]
      exact rearranges_trans (swapF_rearranges f hi (by omega) (by omega) hj)
        (ih (i + 1) (j - 1) _ (by omega) (by omega))
    · rw [if_neg hij]
      exact rearranges_refl a b f

theorem reverseRangeGo_rearranges {α : Type} (f : Nat → α) (a b : Nat) :
    Rearranges a b f (reverseRangeGo f a b) := by
  unfold reverseRangeGo
  by_cases hab : a < b
  · exact reverseRangeLoop_rearranges a b (b - a) a (b - 1) f le_rfl (by omega)
  · have : b - a = 0 := by omega
    rw [this]
    exact rearranges_refl a b f

theorem bitsLenAux_zero : ∀ fuel : Nat, bitsLenAux fuel 0 = 0 := by
  intro fuel
  cases fuel <;> simp [bitsLenAux]

theorem bitsLenAux_spec : ∀ (fuel n : Nat), n ≤ fuel →
    n < 2 ^ bitsLenAux fuel n ∧ (1 ≤ n → 2 ^ bitsLenAux fuel n ≤ 2 * n) := by
  intro fuel
  induction fuel with
  | zero =>
    intro n hn
    have : n = 0 := by omega
    subst this
    simp [bitsLenAux]
  | succ fl ih =>
    intro n hn
    by_cases h0 : n = 0
    · subst h0
      simp [bitsLenAux]
    · have hrec := ih (n / 2) (by omega)
      unfold bitsLenAux
      rw [if_neg h0]
      constructor
      · have := hrec.1
        have hpow : 2 ^ (bitsLenAux fl (n / 2) + 1) = 2 * 2 ^ bitsLenAux fl (n / 2) := by
          ring
        rw [hpow]
        omega
      · intro _
        by_cases h1 : n / 2 = 0
        · rw [h1, bitsLenAux_zero]
          omega
        · have := hrec.2 (by omega)
          have hpow : 2 ^ (bitsLenAux fl (n / 2) + 1) = 2 * 2 ^ bitsLenAux fl (n / 2) := by
            ring
          rw [hpow]
          omega

theorem nextPowerOfTwo_spec (n : Nat) (h : 1 ≤ n) :
    n < nextPowerOfTwo n ∧ nextPowerOfTwo n ≤ 2 * n := by
  have := bitsLenAux_spec n n le_rfl
  exact ⟨this.1, this.2 h⟩

theorem breakPatternsGo_rearranges {α : Type} (f : Nat → α) (a b : Nat) :
    Rearranges a b f (breakPatternsGo f a b) := by
  unfold breakPatternsGo
  by_cases hlen : b - a ≥ 8
  · rw [if_pos hlen]
    have hnpt := nextPowerOfTwo_spec (b - a) (by omega)
    have ho : ∀ x : Nat,
        (if x &&& (nextPowerOfTwo (b - a) - 1) ≥ b - a
          then (x &&& (nextPowerOfTwo (b - a) - 1)) - (b - a)
          else x &&& (nextPowerOfTwo (b - a) - 1)) < b - a := by
      intro x
      have hle : x &&& (nextPowerOfTwo (b - a) - 1) ≤ nextPowerOfTwo (b - a) - 1 :=
        Nat.and_le_right
      by_cases hge : x &&& (nextPowerOfTwo (b - a) - 1) ≥ b - a
      · rw [if_pos hge]
        omega
      · rw [if_neg hge]
        omega
    have h4 : 2 ≤ (b - a) / 4 := by omega
    have h42 : (b - a) / 4 * 2 < b - a := by omega
    have hidx : ∀ i : Nat, i ≤ 2 →
        a ≤ a + (b - a) / 4 * 2 - 1 - 1 + i ∧ a + (b - a) / 4 * 2 - 1 - 1 + i < b := by
      intro i hi
      omega
    have hadd : ∀ o : Nat, o < b - a → a ≤ a + o ∧ a + o < b := by
      intro o ho2
      omega
    obtain ⟨h10, h11⟩ := hidx 0 (by omega)
    obtain ⟨h20, h21⟩ := hidx 1 (by omega)
    obtain ⟨h30, h31⟩ := hidx 2 (by omega)
    obtain ⟨h1c, h1d⟩ := hadd _ (ho ((xorshiftNext (b - a)).1))
    obtain ⟨h2c, h2d⟩ := hadd _ (ho ((xorshiftNext (xorshiftNext (b - a)).2).1))
    obtain ⟨h3c, h3d⟩ := hadd _ (ho ((xorshiftNext (xorshiftNext (xorshiftNext (b - a)).2).2).1))
    exact rearranges_trans (swapF_rearranges f h10 h11 h1c h1d)
      (rearranges_trans (swapF_rearranges _ h20 h21 h2c h2d)
        (swapF_rearranges _ h30 h31 h3c h3d))
  · rw [if_neg hlen]
    exact rearranges_refl a b f

theorem order2Go_fst_mem {α : Type} (κ : α → Nat) (f : Nat → α) (x y s : Nat) :
    (order2Go κ f x y s).1 = x ∨ (order2Go κ f x y s).1 = y := by
  unfold order2Go
  split <;> simp

theorem order2Go_snd_mem {α : Type} (κ : α → Nat) (f : Nat → α) (x y s : Nat) :
    (order2Go κ f x y s).2.1 = x ∨ (order2Go κ f x y s).2.1 = y := by
  unfold order2Go
  split <;> simp

theorem medianGo_mem {α : Type} (κ : α → Nat) (f : Nat → α) (x y z s : Nat) :
    (medianGo κ f x y z s).1 = x ∨ (medianGo κ f x y z s).1 = y ∨
      (medianGo κ f x y z s).1 = z := by
  unfold medianGo
  dsimp only
  have h3 := order2Go_snd_mem κ f (order2Go κ f x y s).1
    (order2Go κ f (order2Go κ f x y s).2.1 z (order2Go κ f x y s).2.2).1
    (order2Go κ f (order2Go κ f x y s).2.1 z (order2Go κ f x y s).2.2).2.2
  have h1f := order2Go_fst_mem κ f x y s
  have h1s := order2Go_snd_mem κ f x y s
  have h2f := order2Go_fst_mem κ f (order2Go κ f x y s).2.1 z (order2Go κ f x y s).2.2
  rcases h3 with h | h
  · rcases h1f with h' | h' <;> rw [h, h'] <;> simp
  · rcases h2f with h' | h'
    · rcases h1s with h'' | h'' <;> rw [h, h', h''] <;> simp
    · rw [h, h']
      simp

theorem medianGo_bounds {α : Type} (κ : α → Nat) (f : Nat → α) {x y z lo hi : Nat}
    (s : Nat) (hx : lo ≤ x ∧ x < hi) (hy : lo ≤ y ∧ y < hi) (hz : lo ≤ z ∧ z < hi) :
    lo ≤ (medianGo κ f x y z s).1 ∧ (medianGo κ f x y z s).1 < hi := by
  rcases medianGo_mem κ f x y z s with h | h | h <;> rw [h] <;> omega

theorem medianAdjacentGo_bounds {α : Type} (κ : α → Nat) (f : Nat → α) {x lo hi : Nat}
    (s : Nat) (hx : lo + 1 ≤ x ∧ x + 1 < hi) :
    lo ≤ (medianAdjacentGo κ f x s).1 ∧ (medianAdjacentGo κ f x s).1 < hi := by
  unfold medianAdjacentGo
  exact medianGo_bounds κ f s (by omega) (by omega) (by omega)

theorem choosePivotGo_bounds {α : Type} (κ : α → Nat) (f : Nat → α) {a b : Nat}
    (h : 12 < b - a) :
    a ≤ (choosePivotGo κ f a b).1 ∧ (choosePivotGo κ f a b).1 < b := by
  simp only [choosePivotGo]
  have h4a : a + (b - a) / 4 * 1 < b := by omega
  have h4b : a + (b - a) / 4 * 2 < b := by omega
  have h4c : a + (b - a) / 4 * 3 < b := by omega
  by_cases h8 : b - a ≥ 8
  · rw [if_pos h8]
    by_cases h50 : b - a ≥ 50
    · rw [if_pos h50]
      have hi := @medianAdjacentGo_bounds α κ f (a + (b - a) / 4 * 1) a b 0 (by omega)
      have hj := @medianAdjacentGo_bounds α κ f (a + (b - a) / 4 * 2) a b
        (medianAdjacentGo κ f (a + (b - a) / 4 * 1) 0).2 (by omega)
      have hk := @medianAdjacentGo_bounds α κ f (a + (b - a) / 4 * 3) a b
        (medianAdjacentGo κ f (a + (b - a) / 4 * 2)
          (medianAdjacentGo κ f (a + (b - a) / 4 * 1) 0).2).2 (by omega)
      have hm := medianGo_bounds κ f
        (medianAdjacentGo κ f (a + (b - a) / 4 * 3)
          (medianAdjacentGo κ f (a + (b - a) / 4 * 2)
            (medianAdjacentGo κ f (a + (b - a) / 4 * 1) 0).2).2).2
        hi hj hk
      dsimp only
      split <;> [skip; split] <;> exact hm
    · rw [if_neg h50]
      have hm := @medianGo_bounds α κ f (a + (b - a) / 4 * 1) (a + (b - a) / 4 * 2)
        (a + (b - a) / 4 * 3) a b 0 (by omega) (by omega) (by omega)
      dsimp only
      split <;> [skip; split] <;> exact hm
  · omega

/-! ### Partition scans -/

theorem scanLess_spec {α : Type} (κ : α → Nat) (f : Nat → α) (a j : Nat) :
    ∀ (fuel i : Nat), j + 2 ≤ i + fuel → i ≤ j + 1 →
    i ≤ scanLess κ f a j fuel i ∧ scanLess κ f a j fuel i ≤ j + 1 ∧
    (∀ m, i ≤ m → m < scanLess κ f a j fuel i → κ (f m) < κ (f a)) ∧
    (scanLess κ f a j fuel i ≤ j → ¬ κ (f (scanLess κ f a j fuel i)) < κ (f a)) := by
  intro fuel
  induction fuel with
  | zero => omega
  | succ fl ih =>
    intro i hfuel hij
    unfold scanLess
    by_cases hg : i ≤ j ∧ lessF κ f i a
    · rw [if_pos hg]
      rw [lessF_iff] at hg
      have hrec := ih (i + 1) (by omega) (by omega)
      refine ⟨by omega, hrec.2.1, ?_, hrec.2.2.2⟩
      intro m hm hm'
      by_cases hmi : m = i
      · subst hmi
        exact hg.2
      · exact hrec.2.2.1 m (by omega) hm'
    · rw [if_neg hg]
      refine ⟨le_rfl, hij, fun m hm hm' => by omega, ?_⟩
      intro hle
      have := Decidable.not_and_iff_or_not.mp hg
      rcases this with h | h
      · omega
      · rw [lessF_iff] at h
        exact h

theorem scanNotLess_spec {α : Type} (κ : α → Nat) (f : Nat → α) (a i : Nat)
    (hi : 1 ≤ i) : ∀ j : Nat, i ≤ j + 1 →
    scanNotLess κ f a i j ≤ j ∧ i - 1 ≤ scanNotLess κ f a i j ∧
    (∀ m, scanNotLess κ f a i j < m → m ≤ j → κ (f a) ≤ κ (f m)) ∧
    (i ≤ scanNotLess κ f a i j → κ (f (scanNotLess κ f a i j)) < κ (f a)) := by
  intro j
  induction j with
  | zero =>
    intro hij
    unfold scanNotLess
    refine ⟨le_rfl, by omega, fun m hm hm' => by omega, fun hle => by omega⟩
  | succ jp ih =>
    intro hij
    unfold scanNotLess
    by_cases hg : i ≤ jp + 1 ∧ ¬ lessF κ f (jp + 1) a
    · rw [if_pos hg]
      have hrec := ih hg.1
      refine ⟨by omega, hrec.2.1, ?_, hrec.2.2.2⟩
      intro m hm hm'
      by_cases hmj : m = jp + 1
      · subst hmj
        have := hg.2
        rw [lessF_iff] at this
        omega
      · exact hrec.2.2.1 m hm (by omega)
    · rw [if_neg hg]
      refine ⟨le_rfl, by omega, fun m hm hm' => by omega, ?_⟩
      intro hle
      have := Decidable.not_and_iff_or_not.mp hg
      rcases this with h | h
      · omega
      · rw [Decidable.not_not] at h
        rw [lessF_iff] at h
        exact h

theorem scanNotGreater_spec {α : Type} (κ : α → Nat) (f : Nat → α) (a j : Nat) :
    ∀ (fuel i : Nat), j + 2 ≤ i + fuel → i ≤ j + 1 →
    i ≤ scanNotGreater κ f a j fuel i ∧ scanNotGreater κ f a j fuel i ≤ j + 1 ∧
    (∀ m, i ≤ m → m < scanNotGreater κ f a j fuel i → κ (f m) ≤ κ (f a)) ∧
    (scanNotGreater κ f a j fuel i ≤ j →
      κ (f a) < κ (f (scanNotGreater κ f a j fuel i))) := by
  intro fuel
  induction fuel with
  | zero => omega
  | succ fl ih =>
    intro i hfuel hij
    unfold scanNotGreater
    by_cases hg : i ≤ j ∧ ¬ lessF κ f a i
    · rw [if_pos hg]
      have hrec := ih (i + 1) (by omega) (by omega)
      refine ⟨by omega, hrec.2.1, ?_, hrec.2.2.2⟩
      intro m hm hm'
      by_cases hmi : m = i
      · subst hmi
        have := hg.2
        rw [lessF_iff] at this
        omega
      · exact hrec.2.2.1 m (by omega) hm'
    · rw [if_neg hg]
      refine ⟨le_rfl, hij, fun m hm hm' => by omega, ?_⟩
      intro hle
      have := Decidable.not_and_iff_or_not.mp hg
      rcases this with h | h
      · omega
      · rw [Decidable.not_not, lessF_iff] at h
        exact h

theorem scanGreater_spec {α : Type} (κ : α → Nat) (f : Nat → α) (a i : Nat)
    (hi : 1 ≤ i) : ∀ j : Nat, i ≤ j + 1 →
    scanGreater κ f a i j ≤ j ∧ i - 1 ≤ scanGreater κ f a i j ∧
    (∀ m, scanGreater κ f a i j < m → m ≤ j → κ (f a) < κ (f m)) ∧
    (i ≤ scanGreater κ f a i j → κ (f (scanGreater κ f a i j)) ≤ κ (f a)) := by
  intro j
  induction j with
  | zero =>
    intro hij
    unfold scanGreater
    refine ⟨le_rfl, by omega, fun m hm hm' => by omega, fun hle => by omega⟩
  | succ jp ih =>
    intro hij
    unfold scanGreater
    by_cases hg : i ≤ jp + 1 ∧ lessF κ f a (jp + 1)
    · rw [if_pos hg]
      have hrec := ih hg.1
      refine ⟨by omega, hrec.2.1, ?_, hrec.2.2.2⟩
      intro m hm hm'
      by_cases hmj : m = jp + 1
      · subst hmj
        have := hg.2
        rw [lessF_iff] at this
        exact this
      · exact hrec.2.2.1 m hm (by omega)
    · rw [if_neg hg]
      refine ⟨le_rfl, by omega, fun m hm hm' => by omega, ?_⟩
      intro hle
      have := Decidable.not_and_iff_or_not.mp hg
      rcases this with h | h
      · omega
      · rw [lessF_iff] at h
        omega

/-! ### partition -/

theorem partitionLoop_spec {α : Type} (κ : α → Nat) (a b : Nat) :
    ∀ (fuel i j : Nat) (f : Nat → α), j + 1 ≤ i + fuel → a + 1 ≤ i → i ≤ j + 1 → j < b →
    (∀ m, a + 1 ≤ m → m < i → κ (f m) < κ (f a)) →
    (∀ m, j < m → m < b → κ (f a) ≤ κ (f m)) →
    Rearranges i (j + 1) f (partitionLoop κ a fuel i j f).2 ∧
    i - 1 ≤ (partitionLoop κ a fuel i j f).1 ∧ (partitionLoop κ a fuel i j f).1 ≤ j ∧
    (∀ m, a + 1 ≤ m → m ≤ (partitionLoop κ a fuel i j f).1 →
      κ ((partitionLoop κ a fuel i j f).2 m) < κ (f a)) ∧
    (∀ m, (partitionLoop κ a fuel i j f).1 < m → m < b →
      κ (f a) ≤ κ ((partitionLoop κ a fuel i j f).2 m)) := by
  intro fuel
  induction fuel with
  | zero =>
    intro i j f hfuel ha hij hjb inv1 inv2
    unfold partitionLoop
    exact ⟨rearranges_refl _ _ f, by omega, le_rfl,
      fun m hm hm' => inv1 m hm (by omega), fun m hm hm' => inv2 m hm hm'⟩
  | succ fl ih =>
    intro i j f hfuel ha hij hjb inv1 inv2
    unfold partitionLoop
    have hS := scanLess_spec κ f a j (j + 2 - i) i (by omega) hij
    set i' := scanLess κ f a j (j + 2 - i) i with hi'def
    have inv1' : ∀ m, a + 1 ≤ m → m < i' → κ (f m) < κ (f a) := by
      intro m hm hm'
      by_cases hmi : m < i
      · exact inv1 m hm hmi
      · exact hS.2.2.1 m (by omega) hm'
    have hT := scanNotLess_spec κ f a i' (by omega) j (by omega)
    set j' := scanNotLess κ f a i' j with hj'def
    have inv2' : ∀ m, j' < m → m < b → κ (f a) ≤ κ (f m) := by
      intro m hm hm'
      by_cases hmj : j < m
      · exact inv2 m hmj hm'
      · exact hT.2.2.1 m hm (by omega)
    by_cases hbreak : i' > j'
    · rw [if_pos hbreak]
      dsimp only
      exact ⟨rearranges_refl _ _ f, by omega, hT.1,
        fun m hm hm' => inv1' m hm (by omega), inv2'⟩
    · rw [if_neg hbreak]
      rw [← hj'def]
      push_neg at hbreak
      have hstopi : ¬ κ (f i') < κ (f a) := hS.2.2.2 (by omega)
      have hstopj : κ (f j') < κ (f a) := hT.2.2.2 (by omega)
      have hne : i' < j' := by
        rcases Nat.lt_or_ge i' j' with h | h
        · exact h
        · have : i' = j' := by omega
          rw [this] at hstopi
          omega
      have hga : swapF f i' j' a = f a := swapF_other f (by omega) (by omega)
      have hrec := ih (i' + 1) (j' - 1) (swapF f i' j') (by omega) (by omega) (by omega)
        (by omega) ?_ ?_
      · have hb1 := hrec.2.1
        have hb2 := hrec.2.2.1
        refine ⟨?_, by omega, by omega, ?_, ?_⟩
        · refine rearranges_trans
            (swapF_rearranges f (by omega) (by omega) (by omega) (by omega))
            (rearranges_mono hrec.1 (by omega) (by omega))
        · intro m hm hm'
          have := hrec.2.2.2.1 m hm (by omega)
          rw [hga] at this
          exact this
        · intro m hm hm'
          have := hrec.2.2.2.2 m (by omega) hm'
          rw [hga] at this
          exact this
      · intro m hm hm'
        rw [hga]
        by_cases hmi : m = i'
        · subst hmi
          rw [swapF_fst]
          exact hstopj
        · rw [swapF_other f hmi (by omega)]
          exact inv1' m hm (by omega)
      · intro m hm hm'
        rw [hga]
        by_cases hmj : m = j'
        · subst hmj
          rw [swapF_snd]
          omega
        · rw [swapF_other f (by omega) hmj]
          exact inv2' m (by omega) hm'

theorem partitionGo_spec {α : Type} (κ : α → Nat) {a b pivot : Nat} (f : Nat → α)
    (hab : a < b) (hpiva : a ≤ pivot) (hpivb : pivot < b) :
    Rearranges a b f (partitionGo κ f a b pivot).2.2 ∧
    a ≤ (partitionGo κ f a b pivot).1 ∧ (partitionGo κ f a b pivot).1 < b ∧
    (∀ m, a ≤ m → m < (partitionGo κ f a b pivot).1 →
      κ ((partitionGo κ f a b pivot).2.2 m) <
        κ ((partitionGo κ f a b pivot).2.2 (partitionGo κ f a b pivot).1)) ∧
    (∀ m, (partitionGo κ f a b pivot).1 < m → m < b →
      κ ((partitionGo κ f a b pivot).2.2 (partitionGo κ f a b pivot).1) ≤
        κ ((partitionGo κ f a b pivot).2.2 m)) := by
  have hswap0 : Rearranges a b f (swapF f a pivot) :=
    swapF_rearranges f le_rfl hab hpiva hpivb
  simp only [partitionGo]
  set f0 := swapF f a pivot with hf0def
  have hS := scanLess_spec κ f0 a (b - 1) (b - 1 + 2 - (a + 1)) (a + 1) (by omega) (by omega)
  set i1 := scanLess κ f0 a (b - 1) (b - 1 + 2 - (a + 1)) (a + 1) with hi1def
  have hT := scanNotLess_spec κ f0 a i1 (by omega) (b - 1) (by omega)
  set j1 := scanNotLess κ f0 a i1 (b - 1) with hj1def
  have inv1e : ∀ m, a + 1 ≤ m → m < i1 → κ (f0 m) < κ (f0 a) := by
    intro m hm hm'
    exact hS.2.2.1 m hm hm'
  have inv2e : ∀ m, j1 < m → m < b → κ (f0 a) ≤ κ (f0 m) := by
    intro m hm hm'
    exact hT.2.2.1 m hm (by omega)
  by_cases hbreak : i1 > j1
  · rw [if_pos hbreak]
    dsimp only
    have hj1a : a ≤ j1 := by omega
    have hj1b : j1 < b := by omega
    have hfst : swapF f0 j1 a j1 = f0 a := swapF_fst f0 j1 a
    have hsnd : swapF f0 j1 a a = f0 j1 := swapF_snd f0 j1 a
    refine ⟨rearranges_trans hswap0 (swapF_rearranges f0 hj1a hj1b le_rfl hab),
      hj1a, hj1b, ?_, ?_⟩
    · intro m hm hm'
      rw [hfst]
      by_cases hma : m = a
      · subst hma
        rw [hsnd]
        exact inv1e j1 (by omega) (by omega)
      · rw [swapF_other f0 (by omega) hma]
        exact inv1e m (by omega) (by omega)
    · intro m hm hm'
      rw [hfst]
      rw [swapF_other f0 (by omega) (by omega)]
      exact inv2e m hm hm'
  · rw [if_neg hbreak]
    push_neg at hbreak
    have hstopi : ¬ κ (f0 i1) < κ (f0 a) := hS.2.2.2 (by omega)
    have hstopj : κ (f0 j1) < κ (f0 a) := hT.2.2.2 (by omega)
    have hne : i1 < j1 := by
      rcases Nat.lt_or_ge i1 j1 with h | h
      · exact h
      · have : i1 = j1 := by omega
        rw [this] at hstopi
        omega
    set f1 := swapF f0 i1 j1 with hf1def
    have hf1a : f1 a = f0 a := swapF_other f0 (by omega) (by omega)
    have hL := partitionLoop_spec κ a b b (i1 + 1) (j1 - 1) f1 (by omega) (by omega)
      (by omega) (by omega) ?_ ?_
    · rcases hpl : partitionLoop κ a b (i1 + 1) (j1 - 1) f1 with ⟨j2, g⟩
      rw [hpl] at hL
      dsimp only at hL ⊢
      obtain ⟨hLr, hLb1, hLb2, hLp1, hLp2⟩ := hL
      have hga : g a = f0 a := by
        have := rearranges_outside hLr (k := a) (by omega)
        rw [this, hf1a]
      have hj2a : a < j2 := by omega
      have hj2b : j2 < b := by omega
      have hfst : swapF g j2 a j2 = g a := swapF_fst g j2 a
      have hsnd : swapF g j2 a a = g j2 := swapF_snd g j2 a
      refine ⟨?_, by omega, hj2b, ?_, ?_⟩
      · refine rearranges_trans hswap0 (rearranges_trans
          (swapF_rearranges f0 (by omega) (by omega) (by omega) (by omega))
          (rearranges_trans (rearranges_mono hLr (by omega) (by omega))
            (swapF_rearranges g (by omega) hj2b le_rfl hab)))
      · intro m hm hm'
        rw [hfst, hga]
        by_cases hma : m = a
        · subst hma
          rw [hsnd]
          have := hLp1 j2 (by omega) le_rfl
          rw [hf1a] at this
          exact this
        · rw [swapF_other g (by omega) hma]
          have := hLp1 m (by omega) (by omega)
          rw [hf1a] at this
          exact this
      · intro m hm hm'
        rw [hfst, hga]
        rw [swapF_other g (by omega) (by omega)]
        have := hLp2 m (by omega) hm'
        rw [hf1a] at this
        exact this
    · intro m hm hm'
      rw [hf1def]
      rw [show swapF f0 i1 j1 a = f0 a from swapF_other f0 (by omega) (by omega)]
      by_cases hmi : m = i1
      · subst hmi
        rw [swapF_fst]
        exact hstopj
      · rw [swapF_other f0 hmi (by omega)]
        exact inv1e m hm (by omega)
    · intro m hm hm'
      rw [hf1def]
      rw [show swapF f0 i1 j1 a = f0 a from swapF_other f0 (by omega) (by omega)]
      by_cases hmj : m = j1
      · subst hmj
        rw [swapF_snd]
        omega
      · rw [swapF_other f0 (by omega) hmj]
        exact inv2e m (by omega) hm'

theorem partitionEqualLoop_spec {α : Type} (κ : α → Nat) (a b : Nat) :
    ∀ (fuel i j : Nat) (f : Nat → α), j + 1 ≤ i + fuel → a + 1 ≤ i → i ≤ j + 1 → j < b →
    (∀ m, a + 1 ≤ m → m < i → κ (f m) ≤ κ (f a)) →
    (∀ m, j < m → m < b → κ (f a) < κ (f m)) →
    Rearranges i (j + 1) f (partitionEqualLoop κ a fuel i j f).2 ∧
    i ≤ (partitionEqualLoop κ a fuel i j f).1 ∧
    (partitionEqualLoop κ a fuel i j f).1 ≤ j + 1 ∧
    (∀ m, a + 1 ≤ m → m < (partitionEqualLoop κ a fuel i j f).1 →
      κ ((partitionEqualLoop κ a fuel i j f).2 m) ≤ κ (f a)) ∧
    (∀ m, (partitionEqualLoop κ a fuel i j f).1 ≤ m → m < b →
      κ (f a) < κ ((partitionEqualLoop κ a fuel i j f).2 m)) := by
  intro fuel
  induction fuel with
  | zero =>
    intro i j f hfuel ha hij hjb inv1 inv2
    unfold partitionEqualLoop
    exact ⟨rearranges_refl _ _ f, le_rfl, hij,
      fun m hm hm' => inv1 m hm hm', fun m hm hm' => inv2 m (by omega) hm'⟩
  | succ fl ih =>
    intro i j f hfuel ha hij hjb inv1 inv2
    unfold partitionEqualLoop
    have hS := scanNotGreater_spec κ f a j (j + 2 - i) i (by omega) hij
    set i' := scanNotGreater κ f a j (j + 2 - i) i with hi'def
    have inv1' : ∀ m, a + 1 ≤ m → m < i' → κ (f m) ≤ κ (f a) := by
      intro m hm hm'
      by_cases hmi : m < i
      · exact inv1 m hm hmi
      · exact hS.2.2.1 m (by omega) hm'
    have hT := scanGreater_spec κ f a i' (by omega) j (by omega)
    set j' := scanGreater κ f a i' j with hj'def
    have inv2' : ∀ m, j' < m → m < b → κ (f a) < κ (f m) := by
      intro m hm hm'
      by_cases hmj : j < m
      · exact inv2 m hmj hm'
      · exact hT.2.2.1 m hm (by omega)
    by_cases hbreak : i' > j'
    · rw [if_pos hbreak]
      dsimp only
      refine ⟨rearranges_refl _ _ f, hS.1, by omega,
        fun m hm hm' => inv1' m hm hm', fun m hm hm' => inv2' m (by omega) hm'⟩
    · rw [if_neg hbreak]
      rw [← hj'def]
      push_neg at hbreak
      have hstopi : κ (f a) < κ (f i') := hS.2.2.2 (by omega)
      have hstopj : κ (f j') ≤ κ (f a) := hT.2.2.2 (by omega)
      have hne : i' < j' := by
        rcases Nat.lt_or_ge i' j' with h | h
        · exact h
        · have : i' = j' := by omega
          rw [this] at hstopi
          omega
      have hga : swapF f i' j' a = f a := swapF_other f (by omega) (by omega)
      have hrec := ih (i' + 1) (j' - 1) (swapF f i' j') (by omega) (by omega) (by omega)
        (by omega) ?_ ?_
      · have hb1 := hrec.2.1
        have hb2 := hrec.2.2.1
        refine ⟨?_, by omega, by omega, ?_, ?_⟩
        · refine rearranges_trans
            (swapF_rearranges f (by omega) (by omega) (by omega) (by omega))
            (rearranges_mono hrec.1 (by omega) (by omega))
        · intro m hm hm'
          have := hrec.2.2.2.1 m hm hm'
          rw [hga] at this
          exact this
        · intro m hm hm'
          have := hrec.2.2.2.2 m hm hm'
          rw [hga] at this
          exact this
      · intro m hm hm'
        rw [hga]
        by_cases hmi : m = i'
        · subst hmi
          rw [swapF_fst]
          exact hstopj
        · rw [swapF_other f hmi (by omega)]
          exact inv1' m hm (by omega)
      · intro m hm hm'
        rw [hga]
        by_cases hmj : m = j'
        · subst hmj
          rw [swapF_snd]
          exact hstopi
        · rw [swapF_other f (by omega) hmj]
          exact inv2' m (by omega) hm'

theorem partitionEqualGo_spec {α : Type} (κ : α → Nat) {a b pivot : Nat} (f : Nat → α)
    (hab : a < b) (hpiva : a ≤ pivot) (hpivb : pivot < b) :
    Rearranges a b f (partitionEqualGo κ f a b pivot).2 ∧
    a + 1 ≤ (partitionEqualGo κ f a b pivot).1 ∧
    (partitionEqualGo κ f a b pivot).1 ≤ b ∧
    (∀ m, a ≤ m → m < (partitionEqualGo κ f a b pivot).1 →
      κ ((partitionEqualGo κ f a b pivot).2 m) ≤ κ (f pivot)) ∧
    (∀ m, (partitionEqualGo κ f a b pivot).1 ≤ m → m < b →
      κ (f pivot) < κ ((partitionEqualGo κ f a b pivot).2 m)) := by
  simp only [partitionEqualGo]
  set f0 := swapF f a pivot with hf0def
  have hf0a : f0 a = f pivot := swapF_fst f a pivot
  have hL := partitionEqualLoop_spec κ a b b (a + 1) (b - 1) f0 (by omega) le_rfl
    (by omega) (by omega) (fun m hm hm' => by omega) ?_
  · rcases hpl : partitionEqualLoop κ a b (a + 1) (b - 1) f0 with ⟨mid, g⟩
    rw [hpl] at hL
    dsimp only at hL ⊢
    obtain ⟨hLr, hLb1, hLb2, hLp1, hLp2⟩ := hL
    have hga : g a = f pivot := by
      rw [rearranges_outside hLr (k := a) (by omega), hf0a]
    refine ⟨?_, hLb1, by omega, ?_, ?_⟩
    · exact rearranges_trans (swapF_rearranges f le_rfl hab hpiva hpivb)
        (rearranges_mono hLr (by omega) (by omega))
    · intro m hm hm'
      by_cases hma : m = a
      · subst hma
        rw [hga]
      · have := hLp1 m (by omega) hm'
        rw [hf0a] at this
        exact this
    · intro m hm hm'
      have := hLp2 m hm hm'
      rw [hf0a] at this
      exact this
  · intro m hm hm'
    rw [hf0def]
    rw [show swapF f a pivot a = f pivot from swapF_fst f a pivot]
    by_cases hmp : m = pivot
    · subst hmp
      rw [swapF_snd]
      omega
    · rw [swapF_other f (by omega) hmp]
      omega

/-! ### partialInsertionSort -/

theorem sortedRange_of_adjacent {α : Type} (κ : α → Nat) (f : Nat → α) (a c : Nat)
    (h : ∀ m, a < m → m < c → κ (f (m - 1)) ≤ κ (f m)) : SortedRange κ f a c := by
  intro i j hi hij hjc
  induction j with
  | zero => omega
  | succ jp ih =>
    by_cases hij' : i = jp
    · subst hij'
      have := h (i + 1) (by omega) hjc
      simpa using this
    · have hstep := h (jp + 1) (by omega) hjc
      simp only [Nat.add_sub_cancel] at hstep
      exact le_trans (ih (by omega) (by omega)) hstep

theorem pisScan_spec {α : Type} (κ : α → Nat) (f : Nat → α) (b : Nat) :
    ∀ (fuel i : Nat), b ≤ i + fuel → i ≤ b →
    i ≤ pisScan κ f b fuel i ∧ pisScan κ f b fuel i ≤ b ∧
    (∀ m, i ≤ m → m < pisScan κ f b fuel i → κ (f (m - 1)) ≤ κ (f m)) := by
  intro fuel
  induction fuel with
  | zero =>
    intro i hfuel hib
    unfold pisScan
    exact ⟨le_rfl, hib, fun m hm hm' => by omega⟩
  | succ fl ih =>
    intro i hfuel hib
    unfold pisScan
    by_cases hg : i < b ∧ ¬ lessF κ f i (i - 1)
    · rw [if_pos hg]
      have hrec := ih (i + 1) (by omega) (by omega)
      refine ⟨by omega, hrec.2.1, ?_⟩
      intro m hm hm'
      by_cases hmi : m = i
      · subst hmi
        have := hg.2
        rw [lessF_iff] at this
        omega
      · exact hrec.2.2 m (by omega) hm'
    · rw [if_neg hg]
      exact ⟨le_rfl, hib, fun m hm hm' => by omega⟩

theorem pisShiftLeft_spec {α : Type} (κ : α → Nat) (a : Nat) :
    ∀ (p : Nat) (f : Nat → α), a ≤ p →
    (0 < a → κ (f (a - 1)) ≤ κ (f p)) →
    SortedRange κ f a p →
    SortedRange κ (pisShiftLeft κ p f) a (p + 1) ∧
      Rearranges a (p + 1) f (pisShiftLeft κ p f) := by
  intro p
  induction p with
  | zero =>
    intro f ha hfence hsorted
    unfold pisShiftLeft
    exact ⟨fun i j hi hij hjc => by omega, rearranges_refl _ _ f⟩
  | succ q ih =>
    intro f ha hfence hsorted
    unfold pisShiftLeft
    by_cases hg : lessF κ f (q + 1) q
    · rw [if_pos hg]
      rw [lessF_iff] at hg
      by_cases haq : a ≤ q
      · have hq2 : swapF f (q + 1) q q = f (q + 1) := swapF_snd f (q + 1) q
        have hq3 : swapF f (q + 1) q (q + 1) = f q := swapF_fst f (q + 1) q
        have hrec := ih (swapF f (q + 1) q) haq ?_ ?_
        · refine ⟨?_, rearranges_trans
            (swapF_rearranges f (by omega) (by omega) haq (by omega))
            (rearranges_mono hrec.2 le_rfl (by omega))⟩
          intro i j hi hij hjc
          by_cases hjq : j = q + 1
          · subst hjq
            have hval : pisShiftLeft κ q (swapF f (q + 1) q) (q + 1) = f q := by
              rw [rearranges_outside hrec.2 (k := q + 1) (by omega), hq3]
            rw [hval]
            have hmem := rearranges_maps_into hrec.2 (k := i) hi (by omega)
            obtain ⟨k', hk1, hk2, hk3⟩ := hmem
            rw [hk3]
            by_cases hkq : k' = q
            · subst hkq
              rw [hq2]
              exact le_of_lt hg
            · rw [swapF_other f (by omega) hkq]
              exact hsorted k' q hk1 (by omega) (by omega)
          · exact hrec.1 i j hi hij (by omega)
        · intro ha0
          rw [swapF_other f (show a - 1 ≠ q + 1 by omega) (show a - 1 ≠ q by omega), hq2]
          exact hfence ha0
        · intro i j hi hij hjq
          rw [swapF_other f (by omega) (by omega), swapF_other f (by omega) (by omega)]
          exact hsorted i j hi hij (by omega)
      · -- q < a: the moving element is at position a and the fence blocks the swap
        exfalso
        have haq' : a = q + 1 := by omega
        have := hfence (by omega)
        rw [haq'] at this
        simp only [Nat.add_sub_cancel] at this
        omega
    · rw [if_neg hg]
      rw [lessF_iff] at hg
      refine ⟨?_, rearranges_refl _ _ f⟩
      have hg' : κ (f q) ≤ κ (f (q + 1)) := by omega
      intro i j hi hij hjc
      by_cases hjq : j = q + 1
      · subst hjq
        by_cases hiq : i = q
        · subst hiq
          exact hg'
        · exact le_trans (hsorted i q hi (by omega) (by omega)) hg'
      · exact hsorted i j hi hij (by omega)

theorem pisShiftRight_rearranges {α : Type} (κ : α → Nat) (b lo : Nat) :
    ∀ (fuel j : Nat) (f : Nat → α), lo + 1 ≤ j →
    Rearranges lo b f (pisShiftRight κ b fuel j f) := by
  intro fuel
  induction fuel with
  | zero => exact fun j f _ => rearranges_refl _ _ f
  | succ fl ih =>
    intro j f hj
    unfold pisShiftRight
    by_cases hg : j < b ∧ lessF κ f j (j - 1)
    · rw [if_pos hg]
      exact rearranges_trans
        (swapF_rearranges f (by omega) (by omega) (by omega) (by omega))
        (ih (j + 1) _ (by omega))
    · rw [if_neg hg]
      exact rearranges_refl _ _ f

theorem pisSteps_spec {α : Type} (κ : α → Nat) (a b : Nat) :
    ∀ (steps i : Nat) (f : Nat → α), a + 1 ≤ i → i ≤ b →
    SortedRange κ f a i →
    (0 < a → ∀ m, a ≤ m → m < b → κ (f (a - 1)) ≤ κ (f m)) →
    Rearranges a b f (pisSteps κ a b steps i f).1 ∧
    ((pisSteps κ a b steps i f).2 = true → SortedRange κ (pisSteps κ a b steps i f).1 a b) := by
  intro steps
  induction steps with
  | zero =>
    intro i f hai hib hsorted hfence
    unfold pisSteps
    exact ⟨rearranges_refl _ _ f, by simp⟩
  | succ st ih =>
    intro i f hai hib hsorted hfence
    unfold pisSteps
    have hscan := pisScan_spec κ f b (b - i) i (by omega) hib
    set i' := pisScan κ f b (b - i) i with hi'def
    have hsorted' : SortedRange κ f a i' := by
      apply sortedRange_of_adjacent
      intro m hm hm'
      by_cases hmi : m < i
      · exact hsorted (m - 1) m (by omega) (by omega) hmi
      · exact hscan.2.2 m (by omega) hm'
    by_cases hc1 : i' = b
    · rw [if_pos hc1]
      dsimp only
      refine ⟨rearranges_refl _ _ f, fun _ => ?_⟩
      rw [← hc1]
      exact hsorted'
    · rw [if_neg hc1]
      by_cases hc2 : b - a < 50
      · rw [if_pos hc2]
        exact ⟨rearranges_refl _ _ f, by simp⟩
      · rw [if_neg hc2]
        have hi'b : i' < b := by omega
        have hi'a : a + 1 ≤ i' := by omega
        have hr1 : Rearranges a b f (swapF f i' (i' - 1)) :=
          swapF_rearranges f (by omega) hi'b (by omega) (by omega)
        have hstep2 :
            SortedRange κ (if i' - a ≥ 2 then pisShiftLeft κ (i' - 1) (swapF f i' (i' - 1))
              else swapF f i' (i' - 1)) a i' ∧
            Rearranges a b (swapF f i' (i' - 1))
              (if i' - a ≥ 2 then pisShiftLeft κ (i' - 1) (swapF f i' (i' - 1))
                else swapF f i' (i' - 1)) := by
          by_cases hc3 : i' - a ≥ 2
          · rw [if_pos hc3]
            have hsl := pisShiftLeft_spec κ a (i' - 1) (swapF f i' (i' - 1)) (by omega) ?_ ?_
            · refine ⟨?_, rearranges_mono hsl.2 le_rfl (by omega)⟩
              have : i' - 1 + 1 = i' := by omega
              rw [this] at hsl
              exact hsl.1
            · intro ha0
              rw [swapF_other f (show a - 1 ≠ i' by omega) (show a - 1 ≠ i' - 1 by omega)]
              rw [show swapF f i' (i' - 1) (i' - 1) = f i' from swapF_snd f i' (i' - 1)]
              exact hfence ha0 i' (by omega) hi'b
            · intro p q hp hpq hq
              rw [swapF_other f (show p ≠ i' by omega) (show p ≠ i' - 1 by omega),
                swapF_other f (show q ≠ i' by omega) (show q ≠ i' - 1 by omega)]
              exact hsorted' p q hp hpq (by omega)
          · rw [if_neg hc3]
            refine ⟨fun p q hp hpq hq => by omega, rearranges_refl _ _ _⟩
        set f2 := if i' - a ≥ 2 then pisShiftLeft κ (i' - 1) (swapF f i' (i' - 1))
          else swapF f i' (i' - 1) with hf2def
        have hstep3 :
            Rearranges i' b f2 (if b - i' ≥ 2 then pisShiftRight κ b (b - i') (i' + 1) f2
              else f2) := by
          by_cases hc4 : b - i' ≥ 2
          · rw [if_pos hc4]
            exact pisShiftRight_rearranges κ b i' (b - i') (i' + 1) f2 (by omega)
          · rw [if_neg hc4]
            exact rearranges_refl _ _ _
        set f3 := if b - i' ≥ 2 then pisShiftRight κ b (b - i') (i' + 1) f2 else f2
          with hf3def
        have hAB : Rearranges a b f f3 :=
          rearranges_trans hr1 (rearranges_trans hstep2.2
            (rearranges_mono hstep3 (by omega) le_rfl))
        have hsorted3 : SortedRange κ f3 a i' := by
          intro p q hp hpq hq
          rw [rearranges_outside hstep3 (k := p) (by omega),
            rearranges_outside hstep3 (k := q) (by omega)]
          exact hstep2.1 p q hp hpq hq
        have hfence3 : 0 < a → ∀ m, a ≤ m → m < b → κ (f3 (a - 1)) ≤ κ (f3 m) := by
          intro ha0 m hm hm'
          rw [rearranges_outside hAB (k := a - 1) (by omega)]
          obtain ⟨k', hk1, hk2, hk3⟩ := rearranges_maps_into hAB (k := m) hm hm'
          rw [hk3]
          exact hfence ha0 k' hk1 hk2
        have hrec := ih i' f3 hi'a (by omega) hsorted3 hfence3
        exact ⟨rearranges_trans hAB hrec.1, hrec.2⟩

theorem partialInsertionSortGo_spec {α : Type} (κ : α → Nat) (f : Nat → α) (a b : Nat)
    (hab : a < b)
    (hfence : 0 < a → ∀ m, a ≤ m → m < b → κ (f (a - 1)) ≤ κ (f m)) :
    Rearranges a b f (partialInsertionSortGo κ f a b).1 ∧
    ((partialInsertionSortGo κ f a b).2 = true →
      SortedRange κ (partialInsertionSortGo κ f a b).1 a b) := by
  unfold partialInsertionSortGo
  exact pisSteps_spec κ a b 5 (a + 1) f le_rfl (by omega)
    (fun p q hp hpq hq => by omega) hfence

/-! ### heapSort

`IsDesc r c` says index `c` lies in the subtree rooted at `r` of the implicit
binary heap (children of `r` at `2r+1`, `2r+2`). -/

def IsDesc (r c : Nat) : Prop :=
  if c ≤ r then c = r else IsDesc r ((c - 1) / 2)
termination_by c
decreasing_by
  simp_wf
  omega

theorem isDesc_refl (r : Nat) : IsDesc r r := by
  rw [IsDesc]
  simp

theorem isDesc_le {r c : Nat} (h : IsDesc r c) : r ≤ c := by
  by_contra hlt
  rw [IsDesc] at h
  rw [if_pos (by omega)] at h
  omega

theorem isDesc_parent {r c : Nat} (h : IsDesc r c) (hne : c ≠ r) :
    1 ≤ c ∧ IsDesc r ((c - 1) / 2) := by
  have hle := isDesc_le h
  rw [IsDesc] at h
  rw [if_neg (by omega)] at h
  exact ⟨by omega, h⟩

theorem isDesc_child {r c : Nat} (h : IsDesc r c) (d : Nat)
    (hd : d = 2 * c + 1 ∨ d = 2 * c + 2) : IsDesc r d := by
  have hle := isDesc_le h
  rw [IsDesc]
  rw [if_neg (by omega)]
  have : (d - 1) / 2 = c := by omega
  rw [this]
  exact h

theorem isDesc_trans {a b c : Nat} (h1 : IsDesc a b) (h2 : IsDesc b c) : IsDesc a c := by
  induction c using Nat.strong_induction_on with
  | _ c ih =>
    by_cases hcb : c = b
    · subst hcb
      exact h1
    · obtain ⟨hc1, hpar⟩ := isDesc_parent h2 hcb
      have hble := isDesc_le h2
      have hale := isDesc_le h1
      have hrec := ih ((c - 1) / 2) (by omega) hpar
      rw [IsDesc]
      rw [if_neg (by omega)]
      exact hrec

theorem isDesc_split {r m : Nat} (h : IsDesc r m) :
    m = r ∨ IsDesc (2 * r + 1) m ∨ IsDesc (2 * r + 2) m := by
  induction m using Nat.strong_induction_on with
  | _ m ih =>
    by_cases hmr : m = r
    · exact Or.inl hmr
    · obtain ⟨hm1, hpar⟩ := isDesc_parent h hmr
      rcases ih ((m - 1) / 2) (by omega) hpar with h1 | h1 | h1
      · -- the parent is r itself: m is one of r's children
        have hle := isDesc_le h
        rcases (show m = 2 * r + 1 ∨ m = 2 * r + 2 by omega) with hm | hm
        · exact Or.inr (Or.inl (hm ▸ isDesc_refl _))
        · exact Or.inr (Or.inr (hm ▸ isDesc_refl _))
      · refine Or.inr (Or.inl ?_)
        rw [IsDesc]
        have := isDesc_le h1
        rw [if_neg (by omega)]
        exact h1
      · refine Or.inr (Or.inr ?_)
        rw [IsDesc]
        have := isDesc_le h1
        rw [if_neg (by omega)]
        exact h1

theorem isDesc_sibling_disjoint {r m : Nat} :
    ¬ (IsDesc (2 * r + 1) m ∧ IsDesc (2 * r + 2) m) := by
  rintro ⟨h1, h2⟩
  induction m using Nat.strong_induction_on with
  | _ m ih =>
    have hle1 := isDesc_le h1
    have hle2 := isDesc_le h2
    by_cases hm1 : m = 2 * r + 1
    · omega
    · by_cases hm2 : m = 2 * r + 2
      · subst hm2
        obtain ⟨_, hpar⟩ := isDesc_parent h1 (by omega)
        have := isDesc_le hpar
        omega
      · obtain ⟨hc1, hp1⟩ := isDesc_parent h1 hm1
        obtain ⟨_, hp2⟩ := isDesc_parent h2 hm2
        exact ih ((m - 1) / 2) (by omega) hp1 hp2

theorem isDesc_sibling_not (r : Nat) :
    ¬ IsDesc (2 * r + 1) (2 * r + 2) ∧ ¬ IsDesc (2 * r + 2) (2 * r + 1) := by
  constructor
  · intro h
    exact isDesc_sibling_disjoint ⟨h, isDesc_refl _⟩
  · intro h
    exact isDesc_sibling_disjoint ⟨isDesc_refl _, h⟩

theorem isDesc_zero (c : Nat) : IsDesc 0 c := by
  induction c using Nat.strong_induction_on with
  | _ c ih =>
    by_cases hc : c = 0
    · subst hc
      exact isDesc_refl 0
    · rw [IsDesc]
      rw [if_neg (by omega)]
      exact ih ((c - 1) / 2) (by omega)

theorem parent_link {m : Nat} (h : 1 ≤ m) :
    m = 2 * ((m - 1) / 2) + 1 ∨ m = 2 * ((m - 1) / 2) + 2 := by
  omega

/-- In a subtree whose internal parent-child links all respect the key order,
every node is bounded by the subtree root. -/
theorem subtree_le {α : Type} (κ : α → Nat) (f : Nat → α) (first hi top : Nat)
    (hlinks : ∀ r c, IsDesc top r → (c = 2 * r + 1 ∨ c = 2 * r + 2) → c < hi →
      κ (f (first + c)) ≤ κ (f (first + r))) :
    ∀ m, IsDesc top m → m < hi → κ (f (first + m)) ≤ κ (f (first + top)) := by
  intro m
  induction m using Nat.strong_induction_on with
  | _ m ih =>
    intro hdesc hm
    by_cases hmt : m = top
    · subst hmt
      exact le_rfl
    · obtain ⟨hm1, hpar⟩ := isDesc_parent hdesc hmt
      have hstep := hlinks ((m - 1) / 2) m hpar (parent_link hm1) hm
      exact le_trans hstep (ih ((m - 1) / 2) (by omega) hpar (by omega))

theorem siftDownGo_spec {α : Type} (κ : α → Nat) (hi first : Nat) :
    ∀ (fuel root : Nat) (f : Nat → α), hi ≤ root + fuel →
    (∀ r c, IsDesc root r → r ≠ root → (c = 2 * r + 1 ∨ c = 2 * r + 2) → c < hi →
      κ (f (first + c)) ≤ κ (f (first + r))) →
    Rearranges (first + root) (first + hi) f (siftDownGo κ hi first fuel root f) ∧
    (∀ m, ¬ IsDesc root m ∨ hi ≤ m →
      siftDownGo κ hi first fuel root f (first + m) = f (first + m)) ∧
    (∀ r c, IsDesc root r → (c = 2 * r + 1 ∨ c = 2 * r + 2) → c < hi →
      κ (siftDownGo κ hi first fuel root f (first + c)) ≤
        κ (siftDownGo κ hi first fuel root f (first + r))) ∧
    (∀ m, IsDesc root m → m < hi → ∃ m', IsDesc root m' ∧ m' < hi ∧
      siftDownGo κ hi first fuel root f (first + m) = f (first + m')) := by
  intro fuel
  induction fuel with
  | zero =>
    intro root f hfuel hyp
    unfold siftDownGo
    refine ⟨rearranges_refl _ _ f, fun m _ => rfl, ?_, fun m h1 h2 => ⟨m, h1, h2, rfl⟩⟩
    intro r c hr hc hchi
    have := isDesc_le hr
    omega
  | succ fl ih =>
    intro root f hfuel hyp
    simp only [siftDownGo]
    by_cases hc0 : 2 * root + 1 ≥ hi
    · rw [if_pos hc0]
      refine ⟨rearranges_refl _ _ f, fun m _ => rfl, ?_, fun m h1 h2 => ⟨m, h1, h2, rfl⟩⟩
      intro r c hr hc hchi
      by_cases hrr : r = root
      · subst hrr
        omega
      · exact hyp r c hr hrr hc hchi
    · rw [if_neg hc0]
      set child := if 2 * root + 1 + 1 < hi ∧ lessF κ f (first + (2 * root + 1))
        (first + (2 * root + 1) + 1) then 2 * root + 1 + 1 else 2 * root + 1 with hchdef
      have hchild_link : child = 2 * root + 1 ∨ child = 2 * root + 2 := by
        rw [hchdef]
        split
        · right
          rfl
        · left
          rfl
      have hchild_lo : root < child := by rcases hchild_link with h | h <;> omega
      have hchild_hi : child < hi := by
        rw [hchdef]
        split
        · omega
        · omega
      have hchmax0 : κ (f (first + (2 * root + 1))) ≤ κ (f (first + child)) := by
        rw [hchdef]
        split
        · rename_i hcond
          have := hcond.2
          rw [lessF_iff] at this
          have heq : first + (2 * root + 1 + 1) = first + (2 * root + 1) + 1 := by omega
          rw [heq]
          omega
        · exact le_rfl
      have hchmax1 : 2 * root + 2 < hi → κ (f (first + (2 * root + 2))) ≤
          κ (f (first + child)) := by
        intro h2
        rw [hchdef]
        split
        · exact le_rfl
        · rename_i hcond
          rw [Decidable.not_and_iff_or_not] at hcond
          rcases hcond with h | h
          · omega
          · rw [lessF_iff] at h
            push_neg at h
            have heq : first + (2 * root + 2) = first + (2 * root + 1) + 1 := by omega
            rw [heq]
            exact h
      have hdescchild : IsDesc root child := isDesc_child (isDesc_refl root) child hchild_link
      by_cases hstop : ¬ lessF κ f (first + root) (first + child)
      · rw [if_pos hstop]
        rw [lessF_iff] at hstop
        push_neg at hstop
        refine ⟨rearranges_refl _ _ f, fun m _ => rfl, ?_, fun m h1 h2 => ⟨m, h1, h2, rfl⟩⟩
        intro r c hr hc hchi
        by_cases hrr : r = root
        · subst hrr
          rcases hc with hc | hc
          · subst hc
            exact le_trans hchmax0 hstop
          · subst hc
            exact le_trans (hchmax1 hchi) hstop
        · exact hyp r c hr hrr hc hchi
      · rw [if_neg hstop]
        rw [Decidable.not_not, lessF_iff] at hstop
        set f1 := swapF f (first + root) (first + child) with hf1def
        have hf1root : f1 (first + root) = f (first + child) := swapF_fst f _ _
        have hf1child : f1 (first + child) = f (first + root) := swapF_snd f _ _
        have hf1other : ∀ m, m ≠ root → m ≠ child → f1 (first + m) = f (first + m) := by
          intro m h1 h2
          exact swapF_other f (by omega) (by omega)
        have hlinksChild : ∀ r c, IsDesc child r → (c = 2 * r + 1 ∨ c = 2 * r + 2) →
            c < hi → κ (f (first + c)) ≤ κ (f (first + r)) := by
          intro r c hr hc hchi
          have hrle := isDesc_le hr
          exact hyp r c (isDesc_trans hdescchild hr) (by omega) hc hchi
        have hrec := ih child f1 (by omega) ?_
        · obtain ⟨hR, hU, hH, hM⟩ := hrec
          have hgroot : siftDownGo κ hi first fl child f1 (first + root) =
              f (first + child) := by
            rw [hU root (Or.inl (fun hd => by have := isDesc_le hd; omega)), hf1root]
          refine ⟨?_, ?_, ?_, ?_⟩
          · -- coarse permutation of the range
            refine rearranges_trans
              (swapF_rearranges f (by omega) (by omega) (by omega) (by omega))
              (rearranges_mono hR (by omega) le_rfl)
          · intro m hm
            have hmnc : ¬ IsDesc child m ∨ hi ≤ m := by
              rcases hm with hm | hm
              · exact Or.inl (fun hd => hm (isDesc_trans hdescchild hd))
              · exact Or.inr hm
            rw [hU m hmnc]
            have hmroot : m ≠ root := by
              rcases hm with hm | hm
              · exact fun he => hm (he ▸ isDesc_refl root)
              · omega
            have hmchild : m ≠ child := by
              rcases hm with hm | hm
              · exact fun he => hm (he ▸ hdescchild)
              · omega
            exact hf1other m hmroot hmchild
          · intro r c hr hc hchi
            by_cases hrdc : IsDesc child r
            · exact hH r c hrdc hc hchi
            · by_cases hrr : r = root
              · rw [hrr] at hc ⊢
                rw [hgroot]
                -- bound each child of the root by the promoted value
                have hsub := subtree_le κ f first hi child hlinksChild
                by_cases hcc : c = child
                · rw [hcc]
                  obtain ⟨m', hm'd, hm'hi, hm'eq⟩ := hM child (isDesc_refl _) hchild_hi
                  rw [hm'eq]
                  by_cases hmc : m' = child
                  · subst hmc
                    rw [hf1child]
                    exact le_of_lt hstop
                  · rw [hf1other m' (by have := isDesc_le hm'd; omega) hmc]
                    exact hsub m' hm'd hm'hi
                · -- the sibling of the promoted child
                  have hcnd : ¬ IsDesc child c := by
                    intro hd
                    rcases hchild_link with h | h <;> rcases hc with h' | h'
                    · exact hcc (by omega)
                    · rw [h, h'] at hd
                      exact (isDesc_sibling_not root).1 hd
                    · rw [h, h'] at hd
                      exact (isDesc_sibling_not root).2 hd
                    · exact hcc (by omega)
                  rw [hU c (Or.inl hcnd)]
                  rw [hf1other c (by omega) (fun he => hcnd (he ▸ isDesc_refl c))]
                  rcases hc with h' | h'
                  · subst h'
                    exact hchmax0
                  · subst h'
                    exact hchmax1 hchi
              · -- r lies in the sibling subtree: nothing there moved
                rcases isDesc_split hr with h | h | h
                · exact absurd h hrr
                · rcases hchild_link with hcl | hcl
                  · rw [hcl] at hrdc
                    exact absurd h hrdc
                  · -- child = 2*root+2, r under 2*root+1
                    have hcnd : ¬ IsDesc child c := by
                      intro hd
                      rw [hcl] at hd
                      have : IsDesc (2 * root + 1) c :=
                        isDesc_child h c hc
                      exact isDesc_sibling_disjoint ⟨this, hd⟩
                    have hrnd : ¬ IsDesc child r := hrdc
                    have hrle := isDesc_le h
                    have hcle : 2 * root + 1 ≤ c := by
                      rcases hc with h' | h' <;> omega
                    rw [hU c (Or.inl hcnd), hU r (Or.inl hrnd)]
                    rw [hf1other c (by omega) (fun he => hcnd (he ▸ isDesc_refl c)),
                      hf1other r (by omega) (fun he => hrnd (he ▸ isDesc_refl r))]
                    exact hyp r c (isDesc_trans (isDesc_child (isDesc_refl root) _
                      (Or.inl rfl)) h) (by omega) hc hchi
                · rcases hchild_link with hcl | hcl
                  · -- child = 2*root+1, r under 2*root+2
                    have hcnd : ¬ IsDesc child c := by
                      intro hd
                      rw [hcl] at hd
                      have : IsDesc (2 * root + 2) c := isDesc_child h c hc
                      exact isDesc_sibling_disjoint ⟨hd, this⟩
                    have hrnd : ¬ IsDesc child r := hrdc
                    have hrle := isDesc_le h
                    have hcle : 2 * root + 2 ≤ c := by
                      rcases hc with h' | h' <;> omega
                    rw [hU c (Or.inl hcnd), hU r (Or.inl hrnd)]
                    rw [hf1other c (by omega) (fun he => hcnd (he ▸ isDesc_refl c)),
                      hf1other r (by omega) (fun he => hrnd (he ▸ isDesc_refl r))]
                    exact hyp r c (isDesc_trans (isDesc_child (isDesc_refl root) _
                      (Or.inr rfl)) h) (by omega) hc hchi
                  · rw [hcl] at hrdc
                    exact absurd h hrdc
          · intro m hmd hmhi
            by_cases hmdc : IsDesc child m
            · obtain ⟨m', hm'd, hm'hi, hm'eq⟩ := hM m hmdc hmhi
              by_cases hmc : m' = child
              · subst hmc
                rw [hm'eq, hf1child]
                exact ⟨root, isDesc_refl root, by omega, rfl⟩
              · rw [hm'eq, hf1other m' (by have := isDesc_le hm'd; omega) hmc]
                exact ⟨m', isDesc_trans hdescchild hm'd, hm'hi, rfl⟩
            · rw [hU m (Or.inl hmdc)]
              by_cases hmr : m = root
              · subst hmr
                rw [hf1root]
                exact ⟨child, hdescchild, hchild_hi, rfl⟩
              · rw [hf1other m hmr (fun he => hmdc (he ▸ isDesc_refl m))]
                exact ⟨m, hmd, hmhi, rfl⟩
        · -- the heap hypothesis for the recursive call
          intro r c hr hrne hc hchi
          have hrle := isDesc_le hr
          have hrgt : child < r := by omega
          have hcgt : child < c := by
            rcases hc with h' | h' <;> omega
          rw [hf1other r (by omega) (by omega), hf1other c (by omega) (by omega)]
          exact hlinksChild r c hr hc hchi

theorem rearranges_of_eq {α : Type} {a b : Nat} {f g : Nat → α}
    (h : ∀ k, g k = f k) : Rearranges a b f g :=
  ⟨Equiv.refl Nat, fun _ _ => rfl, fun k => h k⟩

theorem swapF_self {α : Type} (f : Nat → α) (i k : Nat) : swapF f i i k = f k := by
  unfold swapF
  by_cases h : k = i
  · subst h
    simp
  · simp [h]

theorem heapSortBuild_spec {α : Type} (κ : α → Nat) (hi first : Nat) :
    ∀ (i : Nat) (f : Nat → α),
    (∀ r c, i + 1 ≤ r → (c = 2 * r + 1 ∨ c = 2 * r + 2) → c < hi →
      κ (f (first + c)) ≤ κ (f (first + r))) →
    Rearranges first (first + hi) f (heapSortBuild κ hi first i f) ∧
    (∀ r c, (c = 2 * r + 1 ∨ c = 2 * r + 2) → c < hi →
      κ (heapSortBuild κ hi first i f (first + c)) ≤
        κ (heapSortBuild κ hi first i f (first + r))) := by
  intro i
  induction i with
  | zero =>
    intro f hyp
    unfold heapSortBuild
    have hsd := siftDownGo_spec κ hi first (hi + 1) 0 f (by omega) ?_
    · refine ⟨?_, ?_⟩
      · have := hsd.1
        have e : first + 0 = first := rfl
        rw [e] at this
        exact this
      · intro r c hc hchi
        exact hsd.2.2.1 r c (isDesc_zero r) hc hchi
    · intro r c hr hrne hc hchi
      have := isDesc_le hr
      exact hyp r c (by omega) hc hchi
  | succ i ih =>
    intro f hyp
    unfold heapSortBuild
    have hsd := siftDownGo_spec κ hi first (hi + 1) (i + 1) f (by omega) ?_
    · obtain ⟨hR, hU, hH, hM⟩ := hsd
      have hyp1 : ∀ r c, i + 1 ≤ r → (c = 2 * r + 1 ∨ c = 2 * r + 2) → c < hi →
          κ (siftDownGo κ hi first (hi + 1) (i + 1) f (first + c)) ≤
            κ (siftDownGo κ hi first (hi + 1) (i + 1) f (first + r)) := by
        intro r c hr hc hchi
        by_cases hrd : IsDesc (i + 1) r
        · exact hH r c hrd hc hchi
        · have hrne : r ≠ i + 1 := fun he => hrd (he ▸ isDesc_refl r)
          have hcnd : ¬ IsDesc (i + 1) c := by
            intro hd
            have hcne : c ≠ i + 1 := by rcases hc with h | h <;> omega
            obtain ⟨hc1, hpar⟩ := isDesc_parent hd hcne
            have : (c - 1) / 2 = r := by rcases hc with h | h <;> omega
            rw [this] at hpar
            exact hrd hpar
          rw [hU r (Or.inl hrd), hU c (Or.inl hcnd)]
          exact hyp r c (by omega) hc hchi
      have hrec := ih (siftDownGo κ hi first (hi + 1) (i + 1) f) hyp1
      refine ⟨?_, hrec.2⟩
      by_cases hhi : i + 1 < hi
      · exact rearranges_trans (rearranges_mono hR (by omega) le_rfl) hrec.1
      · -- the sift-down root is outside the heap: nothing moves
        refine rearranges_trans (rearranges_of_eq ?_) hrec.1
        intro k
        by_cases hk : first + (i + 1) ≤ k ∧ k < first + hi
        · omega
        · exact rearranges_outside hR (by omega)
    · intro r c hr hrne hc hchi
      have := isDesc_le hr
      exact hyp r c (by omega) hc hchi

theorem heapSortExtract_spec {α : Type} (κ : α → Nat) (first hi : Nat) :
    ∀ (i : Nat) (f : Nat → α), i + 1 ≤ hi →
    (∀ r c, (c = 2 * r + 1 ∨ c = 2 * r + 2) → c < i + 1 →
      κ (f (first + c)) ≤ κ (f (first + r))) →
    SortedRange κ f (first + (i + 1)) (first + hi) →
    (∀ p q, p < i + 1 → i + 1 ≤ q → q < hi →
      κ (f (first + p)) ≤ κ (f (first + q))) →
    Rearranges first (first + i + 1) f (heapSortExtract κ first i f) ∧
      SortedRange κ (heapSortExtract κ first i f) first (first + hi) := by
  intro i
  induction i with
  | zero =>
    intro f hhi hheap htail hsplit
    unfold heapSortExtract
    have hg : ∀ k, siftDownGo κ 0 first 1 0 (swapF f first first) k = f k := by
      intro k
      have h1 : siftDownGo κ 0 first 1 0 (swapF f first first) k =
          swapF f first first k := by
        simp [siftDownGo]
      rw [h1, swapF_self]
    refine ⟨rearranges_of_eq hg, ?_⟩
    intro x y hx hxy hyb
    rw [hg, hg]
    by_cases hx1 : first + 1 ≤ x
    · exact htail x y hx1 hxy hyb
    · have hx0 : x = first := by omega
      have := hsplit 0 (y - first) (by omega) (by omega) (by omega)
      have e0 : first + 0 = first := rfl
      have ey : first + (y - first) = y := by omega
      rw [e0, ey] at this
      rw [hx0]
      exact this
  | succ i ih =>
    intro f hhi hheap htail hsplit
    unfold heapSortExtract
    set f1 := swapF f first (first + (i + 1)) with hf1def
    have hf1top : f1 first = f (first + (i + 1)) := swapF_fst f _ _
    have hf1last : f1 (first + (i + 1)) = f first := swapF_snd f _ _
    have hf1other : ∀ m, m ≠ 0 → m ≠ i + 1 → f1 (first + m) = f (first + m) := by
      intro m h1 h2
      exact swapF_other f (by omega) (by omega)
    have hmax := subtree_le κ f first (i + 1 + 1) 0 (fun r c hr hc hchi =>
      hheap r c hc hchi)
    have hsd := siftDownGo_spec κ (i + 1) first (i + 2) 0 f1 (by omega) ?_
    · obtain ⟨hR, hU, hH, hM⟩ := hsd
      set f2 := siftDownGo κ (i + 1) first (i + 2) 0 f1 with hf2def
      have hf2last : f2 (first + (i + 1)) = f first := by
        rw [hU (i + 1) (Or.inr le_rfl), hf1last]
      have hf2tail : ∀ m, i + 1 < m → f2 (first + m) = f (first + m) := by
        intro m hm
        rw [hU m (Or.inr (by omega)), hf1other m (by omega) (by omega)]
      have hf2vals : ∀ p, p < i + 1 → ∃ p', p' < i + 1 + 1 ∧
          f2 (first + p) = f (first + p') := by
        intro p hp
        obtain ⟨m', hm'd, hm'hi, hm'eq⟩ := hM p (isDesc_zero p) hp
        by_cases hm0 : m' = 0
        · subst hm0
          rw [hm'eq]
          have e0 : first + 0 = first := rfl
          rw [e0, hf1top]
          exact ⟨i + 1, by omega, rfl⟩
        · by_cases hmi : m' = i + 1
          · subst hmi
            rw [hm'eq, hf1last]
            exact ⟨0, by omega, by rw [show first + 0 = first from rfl]⟩
          · rw [hm'eq, hf1other m' hm0 hmi]
            exact ⟨m', by omega, rfl⟩
      have hrec := ih f2 (by omega) ?_ ?_ ?_
      · refine ⟨?_, hrec.2⟩
        have h1 : Rearranges first (first + (i + 1) + 1) f f1 := by
          rw [hf1def]
          exact swapF_rearranges f (by omega) (by omega) (by omega) (by omega)
        have h2 : Rearranges first (first + (i + 1) + 1) f1 f2 := by
          have e0 : first + 0 = first := rfl
          exact rearranges_mono (e0 ▸ hR) le_rfl (by omega)
        have h3 : Rearranges first (first + (i + 1) + 1) f2
            (heapSortExtract κ first i f2) :=
          rearranges_mono hrec.1 le_rfl (by omega)
        exact rearranges_trans h1 (rearranges_trans h2 h3)
      · -- heap property on the shrunk heap
        intro r c hc hchi
        exact hH r c (isDesc_zero r) hc (by omega)
      · -- sorted tail grows by the extracted maximum
        intro x y hx hxy hyb
        have hxm : x = first + (x - first) := by omega
        have hym : y = first + (y - first) := by omega
        by_cases hxe : x = first + (i + 1)
        · rw [hxe, hf2last, hym, hf2tail (y - first) (by omega)]
          exact hsplit 0 (y - first) (by omega) (by omega) (by omega)
        · rw [hxm, hf2tail (x - first) (by omega), hym,
            hf2tail (y - first) (by omega), ← hxm, ← hym]
          exact htail x y (by omega) hxy hyb
      · -- every heap element is below the sorted tail
        intro p q hp hq hqb
        by_cases hqe : q = i + 1
        · subst hqe
          rw [hf2last]
          obtain ⟨p', hp', hpe⟩ := hf2vals p (by omega)
          rw [hpe]
          have := hmax p' (isDesc_zero p') (by omega)
          rw [show first + 0 = first from rfl] at this
          exact this
        · rw [hf2tail q (by omega)]
          obtain ⟨p', hp', hpe⟩ := hf2vals p (by omega)
          rw [hpe]
          exact hsplit p' q hp' (by omega) hqb
    · -- sift-down hypothesis: the heap minus its root
      intro r c hr hrne hc hchi
      have hrle : 1 ≤ r := by
        have := isDesc_le hr
        rcases Nat.eq_zero_or_pos r with h | h
        · exact absurd h hrne
        · exact h
      have hcge : 1 ≤ c := by rcases hc with h | h <;> omega
      rw [hf1other r (by omega) (by omega), hf1other c (by omega) (by omega)]
      exact hheap r c hc (by omega)

theorem heapSortGo_spec {α : Type} (κ : α → Nat) (a b : Nat) (f : Nat → α) :
    Rearranges a b f (heapSortGo κ a b f) ∧
      SortedRange κ (heapSortGo κ a b f) a b := by
  simp only [heapSortGo]
  have hbuild := heapSortBuild_spec κ (b - a) a ((b - a - 1) / 2) f ?_
  · set f1 := heapSortBuild κ (b - a) a ((b - a - 1) / 2) f with hf1
    by_cases hz : b - a = 0
    · rw [if_pos hz]
      refine ⟨rearranges_of_eq fun k => rearranges_outside hbuild.1 (by omega), ?_⟩
      intro i j hi hij hjb
      omega
    · rw [if_neg hz]
      have hext := heapSortExtract_spec κ a (b - a) (b - a - 1) f1 (by omega) ?_ ?_ ?_
      · have h1 : Rearranges a b f f1 := by
          have e : a + (b - a) = b := by omega
          exact e ▸ hbuild.1
        have h2 : Rearranges a b f1 (heapSortExtract κ a (b - a - 1) f1) := by
          have hx := hext.1
          have e : a + (b - a - 1) + 1 = b := by omega
          rw [e] at hx
          exact hx
        refine ⟨rearranges_trans h1 h2, ?_⟩
        have hx := hext.2
        have e : a + (b - a) = b := by omega
        rw [e] at hx
        exact hx
      · -- the heap built by the first phase
        intro r c hc hchi
        exact hbuild.2 r c hc (by omega)
      · -- the not-yet-extracted tail is empty
        intro x y hx hxy hyb
        omega
      · -- the heap/tail split is vacuous at the start
        intro p q hp hq hqb
        exfalso
        omega
  · -- nodes above the last parent have no children inside the heap
    intro r c hr hc hchi
    exfalso
    rcases hc with h | h <;> omega

/-- The fence invariant (everything in the slice is at least the element just
below it, Go's `data.Less(a-1, pivot)` precondition) survives any permutation
of the slice. -/
theorem fence_preserved {α : Type} (κ : α → Nat) {a b : Nat} {f g : Nat → α}
    (h : Rearranges a b f g)
    (hf : 0 < a → ∀ m, a ≤ m → m < b → κ (f (a - 1)) ≤ κ (f m)) :
    0 < a → ∀ m, a ≤ m → m < b → κ (g (a - 1)) ≤ κ (g m) := by
  intro ha m hm hm'
  obtain ⟨m', hm'1, hm'2, he⟩ := rearranges_maps_into h hm hm'
  rw [rearranges_outside h (Or.inl (by omega)), he]
  exact hf ha m' hm'1 hm'2

theorem rearranges_value_bound {α : Type} (κ : α → Nat) {a b : Nat} {f g : Nat → α}
    (h : Rearranges a b f g) (P : Nat → Prop)
    (hf : ∀ m, a ≤ m → m < b → P (κ (f m))) :
    ∀ m, a ≤ m → m < b → P (κ (g m)) := by
  intro m hm hm'
  obtain ⟨m', h1, h2, he⟩ := rearranges_maps_into h hm hm'
  rw [he]
  exact hf m' h1 h2

/-- `pdqsort_func(data, a, b, limit)`: sorts `[a, b)` and permutes nothing
outside it, under the fence invariant Go maintains for the `a > 0` probe. -/
theorem pdqsortLoop_spec {α : Type} (κ : α → Nat) :
    ∀ (fuel : Nat) (f : Nat → α) (a b limit : Nat) (wb wp : Bool),
    (0 < a → ∀ m, a ≤ m → m < b → κ (f (a - 1)) ≤ κ (f m)) →
    Rearranges a b f (pdqsortLoop κ fuel f a b limit wb wp) ∧
      SortedRange κ (pdqsortLoop κ fuel f a b limit wb wp) a b := by
  intro fuel
  induction fuel with
  | zero =>
    intro f a b limit wb wp hfence
    exact heapSortGo_spec κ a b f
  | succ fuel ih =>
    intro f a b limit wb wp hfence
    simp only [pdqsortLoop]
    by_cases h12 : b - a ≤ 12
    · rw [if_pos h12]
      have h := insertionSortGo_spec κ f a b
      exact ⟨h.2, h.1⟩
    rw [if_neg h12]
    by_cases hlim : limit = 0
    · rw [if_pos hlim]
      exact heapSortGo_spec κ a b f
    rw [if_neg hlim]
    have hab : a < b := by omega
    set bp := if wb = false then (breakPatternsGo f a b, limit - 1) else (f, limit)
      with hbpdef
    have hf1R : Rearranges a b f bp.1 := by
      rw [hbpdef]
      by_cases hwb : wb = false
      · rw [if_pos hwb]
        exact breakPatternsGo_rearranges f a b
      · rw [if_neg hwb]
        exact rearranges_refl a b f
    set ph := choosePivotGo κ bp.1 a b with hphdef
    have hphb : a ≤ ph.1 ∧ ph.1 < b := by
      rw [hphdef]
      exact choosePivotGo_bounds κ bp.1 (by omega)
    set rv := if ph.2 = SortHint.decreasing
      then (reverseRangeGo bp.1 a b, b - 1 - (ph.1 - a), SortHint.increasing)
      else (bp.1, ph.1, ph.2) with hrvdef
    have hf2R : Rearranges a b bp.1 rv.1 := by
      rw [hrvdef]
      by_cases hd : ph.2 = SortHint.decreasing
      · rw [if_pos hd]
        exact reverseRangeGo_rearranges bp.1 a b
      · rw [if_neg hd]
        exact rearranges_refl a b bp.1
    have hpivb : a ≤ rv.2.1 ∧ rv.2.1 < b := by
      rw [hrvdef]
      by_cases hd : ph.2 = SortHint.decreasing
      · rw [if_pos hd]
        exact ⟨show a ≤ b - 1 - (ph.1 - a) by omega, show b - 1 - (ph.1 - a) < b by omega⟩
      · rw [if_neg hd]
        exact hphb
    set ps := if wb ∧ wp ∧ rv.2.2 = SortHint.increasing
      then partialInsertionSortGo κ rv.1 a b else (rv.1, false) with hpsdef
    have hf3R : Rearranges a b rv.1 ps.1 := by
      rw [hpsdef]
      by_cases hc : wb ∧ wp ∧ rv.2.2 = SortHint.increasing
      · rw [if_pos hc]
        exact (partialInsertionSortGo_spec κ rv.1 a b hab
          (fence_preserved κ (rearranges_trans hf1R hf2R) hfence)).1
      · rw [if_neg hc]
        exact rearranges_refl a b rv.1
    have hdone : ps.2 = true → SortedRange κ ps.1 a b := by
      rw [hpsdef]
      by_cases hc : wb ∧ wp ∧ rv.2.2 = SortHint.increasing
      · rw [if_pos hc]
        exact (partialInsertionSortGo_spec κ rv.1 a b hab
          (fence_preserved κ (rearranges_trans hf1R hf2R) hfence)).2
      · rw [if_neg hc]
        intro h
        exact absurd h (by simp)
    have hchainR : Rearranges a b f ps.1 :=
      rearranges_trans hf1R (rearranges_trans hf2R hf3R)
    have hfence3 : 0 < a → ∀ m, a ≤ m → m < b → κ (ps.1 (a - 1)) ≤ κ (ps.1 m) :=
      fence_preserved κ hchainR hfence
    by_cases hps2 : ps.2 = true
    · rw [if_pos hps2]
      exact ⟨hchainR, hdone hps2⟩
    rw [if_neg hps2]
    by_cases hpec : 0 < a ∧ ¬ lessF κ ps.1 (a - 1) rv.2.1 = true
    · rw [if_pos hpec]
      obtain ⟨ha0, hnl⟩ := hpec
      have hplow : κ (ps.1 rv.2.1) ≤ κ (ps.1 (a - 1)) := by
        rw [lessF_iff] at hnl
        omega
      have hpe := partitionEqualGo_spec κ ps.1 hab hpivb.1 hpivb.2
      set pe := partitionEqualGo κ ps.1 a b rv.2.1 with hpedef
      obtain ⟨hpeR, hpe1, hpe2, hlow, hhigh⟩ := hpe
      have hge : ∀ m, a ≤ m → m < b → κ (ps.1 rv.2.1) ≤ κ (ps.1 m) :=
        fun m hm hm' => le_trans hplow (hfence3 ha0 m hm hm')
      have hgeP := rearranges_value_bound κ hpeR (fun v => κ (ps.1 rv.2.1) ≤ v) hge
      have heqv : ∀ m, a ≤ m → m < pe.1 → κ (pe.2 m) = κ (ps.1 rv.2.1) := by
        intro m hm hm'
        have h1 := hlow m hm hm'
        have h2 := hgeP m hm (by omega)
        omega
      have hrec := ih pe.2 pe.1 b bp.2 wb wp ?_
      · have hfix : ∀ k, k < pe.1 →
            pdqsortLoop κ fuel pe.2 pe.1 b bp.2 wb wp k = pe.2 k :=
          fun k hk => rearranges_outside hrec.1 (Or.inl hk)
        have htailv := rearranges_value_bound κ hrec.1
          (fun v => κ (ps.1 rv.2.1) < v) hhigh
        refine ⟨rearranges_trans hchainR (rearranges_trans hpeR
          (rearranges_mono hrec.1 (by omega) le_rfl)), ?_⟩
        intro i j hi hij hjb
        by_cases hjp : j < pe.1
        · rw [hfix i (by omega), hfix j hjp, heqv i hi (by omega),
            heqv j (by omega) hjp]
        · by_cases hip : i < pe.1
          · rw [hfix i hip, heqv i hi hip]
            exact le_of_lt (htailv j (by omega) hjb)
          · exact hrec.2 i j (by omega) hij hjb
      · intro hpe0 m hm hm'
        have h1 : κ (pe.2 (pe.1 - 1)) = κ (ps.1 rv.2.1) :=
          heqv (pe.1 - 1) (by omega) (by omega)
        have h2 : κ (ps.1 rv.2.1) < κ (pe.2 m) := hhigh m (by omega) hm'
        omega
    · rw [if_neg hpec]
      have hpt := partitionGo_spec κ ps.1 hab hpivb.1 hpivb.2
      set pt := partitionGo κ ps.1 a b rv.2.1 with hptdef
      obtain ⟨hptR, hmida, hmidb, hlow, hupp⟩ := hpt
      have hchainR4 : Rearranges a b f pt.2.2 := rearranges_trans hchainR hptR
      have hfence4 : 0 < a → ∀ m, a ≤ m → m < b →
          κ (pt.2.2 (a - 1)) ≤ κ (pt.2.2 m) :=
        fence_preserved κ hchainR4 hfence
      by_cases hlt : pt.1 - a < b - pt.1
      · rw [if_pos hlt]
        have hL := ih pt.2.2 a pt.1 bp.2 true true
          (fun ha0 m hm hm' => hfence4 ha0 m hm (by omega))
        set fL := pdqsortLoop κ fuel pt.2.2 a pt.1 bp.2 true true with hfLdef
        have hfLfix : ∀ k, pt.1 ≤ k → fL k = pt.2.2 k :=
          fun k hk => rearranges_outside hL.1 (Or.inr hk)
        have hR := ih fL (pt.1 + 1) b bp.2
          (decide (min (pt.1 - a) (b - pt.1) ≥ (b - a) / 8)) pt.2.1 ?_
        · set g := pdqsortLoop κ fuel fL (pt.1 + 1) b bp.2
            (decide (min (pt.1 - a) (b - pt.1) ≥ (b - a) / 8)) pt.2.1 with hgdef
          have hgfix : ∀ k, k ≤ pt.1 → g k = fL k :=
            fun k hk => rearranges_outside hR.1 (Or.inl (by omega))
          have hlowL : ∀ m, a ≤ m → m < pt.1 → κ (fL m) < κ (pt.2.2 pt.1) :=
            rearranges_value_bound κ hL.1 (fun v => v < κ (pt.2.2 pt.1)) hlow
          have huppR : ∀ m, pt.1 + 1 ≤ m → m < b → κ (pt.2.2 pt.1) ≤ κ (g m) := by
            have h1 : ∀ m, pt.1 + 1 ≤ m → m < b →
                κ (pt.2.2 pt.1) ≤ κ (fL m) := by
              intro m hm hm'
              rw [hfLfix m (by omega)]
              exact hupp m (by omega) hm'
            exact rearranges_value_bound κ hR.1 (fun v => κ (pt.2.2 pt.1) ≤ v) h1
          refine ⟨rearranges_trans hchainR4 (rearranges_trans
            (rearranges_mono hL.1 le_rfl (by omega))
            (rearranges_mono hR.1 (by omega) le_rfl)), ?_⟩
          intro i j hi hij hjb
          by_cases hjm : j ≤ pt.1
          · rw [hgfix i (by omega), hgfix j hjm]
            by_cases hjm2 : j < pt.1
            · exact hL.2 i j hi hij hjm2
            · have hje : j = pt.1 := by omega
              rw [hje, hfLfix pt.1 le_rfl]
              exact le_of_lt (hlowL i hi (by omega))
          · by_cases him : i ≤ pt.1
            · refine le_trans ?_ (huppR j (by omega) hjb)
              rw [hgfix i him]
              by_cases him2 : i < pt.1
              · exact le_of_lt (hlowL i hi him2)
              · have hie : i = pt.1 := by omega
                rw [hie, hfLfix pt.1 le_rfl]
            · exact hR.2 i j (by omega) hij hjb
        · intro h0 m hm hm'
          have e : pt.1 + 1 - 1 = pt.1 := by omega
          rw [e, hfLfix pt.1 le_rfl, hfLfix m (by omega)]
          exact hupp m (by omega) hm'
      · rw [if_neg hlt]
        have hR := ih pt.2.2 (pt.1 + 1) b bp.2 true true ?_
        · set fR := pdqsortLoop κ fuel pt.2.2 (pt.1 + 1) b bp.2 true true with hfRdef
          have hfRfix : ∀ k, k ≤ pt.1 → fR k = pt.2.2 k :=
            fun k hk => rearranges_outside hR.1 (Or.inl (by omega))
          have hL := ih fR a pt.1 bp.2
            (decide (min (pt.1 - a) (b - pt.1) ≥ (b - a) / 8)) pt.2.1 ?_
          · set g := pdqsortLoop κ fuel fR a pt.1 bp.2
              (decide (min (pt.1 - a) (b - pt.1) ≥ (b - a) / 8)) pt.2.1 with hgdef
            have hgfix : ∀ k, pt.1 ≤ k → g k = fR k :=
              fun k hk => rearranges_outside hL.1 (Or.inr hk)
            have hlowL : ∀ m, a ≤ m → m < pt.1 → κ (g m) < κ (pt.2.2 pt.1) := by
              have h1 : ∀ m, a ≤ m → m < pt.1 →
                  κ (fR m) < κ (pt.2.2 pt.1) := by
                intro m hm hm'
                rw [hfRfix m (by omega)]
                exact hlow m hm hm'
              exact rearranges_value_bound κ hL.1 (fun v => v < κ (pt.2.2 pt.1)) h1
            have huppR : ∀ m, pt.1 + 1 ≤ m → m < b →
                κ (pt.2.2 pt.1) ≤ κ (fR m) :=
              rearranges_value_bound κ hR.1 (fun v => κ (pt.2.2 pt.1) ≤ v)
                (fun m hm hm' => hupp m (by omega) hm')
            refine ⟨rearranges_trans hchainR4 (rearranges_trans
              (rearranges_mono hR.1 (by omega) le_rfl)
              (rearranges_mono hL.1 le_rfl (by omega))), ?_⟩
            intro i j hi hij hjb
            by_cases hjm : j < pt.1
            · exact hL.2 i j hi hij hjm
            · by_cases him : i < pt.1
              · refine le_trans (le_of_lt (hlowL i hi him)) ?_
                rw [hgfix j (by omega)]
                by_cases hje : j = pt.1
                · rw [hje, hfRfix pt.1 le_rfl]
                · exact huppR j (by omega) hjb
              · rw [hgfix i (by omega), hgfix j (by omega)]
                by_cases hie : i = pt.1
                · rw [hie, hfRfix pt.1 le_rfl]
                  exact huppR j (by omega) hjb
                · exact hR.2 i j (by omega) hij hjb
          · intro ha0 m hm hm'
            rw [hfRfix (a - 1) (by omega), hfRfix m (by omega)]
            exact hfence4 ha0 m hm (by omega)
        · intro h0 m hm hm'
          have e : pt.1 + 1 - 1 = pt.1 := by omega
          rw [e]
          exact hupp m (by omega) hm'

/-! ## From the index-function sort back to lists -/

theorem map_getD_range {α : Type} [Inhabited α] (l : List α) :
    List.map (fun i => l.getD i default) (List.range l.length) = l := by
  apply List.ext_getElem
  · simp
  · intro i h1 h2
    simp [List.getD_eq_getElem?_getD, List.getElem?_eq_getElem h2]

theorem sortSliceGo_length {α : Type} [Inhabited α] (κ : α → Nat) (l : List α) :
    (sortSliceGo κ l).length = l.length := by
  simp [sortSliceGo]

/-- `sort.Slice` permutes the slice: the output is a permutation of the input. -/
theorem sortSliceGo_perm {α : Type} [Inhabited α] (κ : α → Nat) (l : List α) :
    List.Perm (sortSliceGo κ l) l := by
  obtain ⟨hR, _⟩ := pdqsortLoop_spec κ (l.length + 1) (fun i => l.getD i default)
    0 l.length (bitsLen l.length) true true (fun h => absurd h (by omega))
  obtain ⟨σ, hfix, hg⟩ := hR
  have hltn : ∀ k, k < l.length → σ k < l.length := by
    intro k hk
    by_contra hge
    push_neg at hge
    have h1 : σ (σ k) = σ k := hfix (σ k) (Or.inr hge)
    have h2 := σ.injective h1
    omega
  have hperm1 : List.Perm (List.map (fun k => σ k) (List.range l.length))
      (List.range l.length) := by
    rw [List.perm_ext_iff_of_nodup
      (List.Nodup.map (fun x y hxy => σ.injective hxy) (List.nodup_range _))
      (List.nodup_range _)]
    intro x
    simp only [List.mem_map, List.mem_range]
    constructor
    · rintro ⟨k, hk, rfl⟩
      exact hltn k hk
    · intro hx
      refine ⟨σ.symm x, ?_, σ.apply_symm_apply x⟩
      by_contra hge
      push_neg at hge
      have h1 : σ (σ.symm x) = σ.symm x := hfix _ (Or.inr hge)
      rw [σ.apply_symm_apply] at h1
      omega
  have hfun : pdqsortLoop κ (l.length + 1) (fun i => l.getD i default) 0 l.length
      (bitsLen l.length) true true =
      (fun i => l.getD i default) ∘ (fun k => σ k) := funext hg
  have hout : sortSliceGo κ l =
      List.map (fun i => l.getD i default)
        (List.map (fun k => σ k) (List.range l.length)) := by
    rw [List.map_map]
    simp only [sortSliceGo]
    rw [hfun]
  rw [hout]
  refine (hperm1.map (fun i => l.getD i default)).trans ?_
  rw [map_getD_range]

/-- `sort.Slice` sorts the slice by the comparator's key. -/
theorem sortSliceGo_pairwise {α : Type} [Inhabited α] (κ : α → Nat) (l : List α) :
    List.Pairwise (fun x y => κ x ≤ κ y) (sortSliceGo κ l) := by
  obtain ⟨_, hS⟩ := pdqsortLoop_spec κ (l.length + 1) (fun i => l.getD i default)
    0 l.length (bitsLen l.length) true true (fun h => absurd h (by omega))
  rw [List.pairwise_iff_getElem]
  intro i j hi hj hij
  have hlen : (sortSliceGo κ l).length = l.length := sortSliceGo_length κ l
  have hget : ∀ (k : Nat) (hk : k < (sortSliceGo κ l).length),
      (sortSliceGo κ l)[k] = pdqsortLoop κ (l.length + 1)
        (fun i => l.getD i default) 0 l.length (bitsLen l.length) true true k := by
    intro k hk
    simp [sortSliceGo]
  rw [hget i hi, hget j hj]
  exact hS i j (by omega) hij (by omega)

/-- A sorted permutation of a list whose key has no collisions is unique. -/
theorem eq_of_perm_sorted {α : Type} (κ : α → Nat) :
    ∀ (l1 l2 : List α), List.Perm l1 l2 →
    List.Pairwise (fun x y => κ x ≤ κ y) l1 →
    List.Pairwise (fun x y => κ x ≤ κ y) l2 →
    (∀ x ∈ l1, ∀ y ∈ l1, κ x = κ y → x = y) →
    l1 = l2 := by
  intro l1
  induction l1 with
  | nil =>
    intro l2 hp _ _ _
    exact (List.Perm.eq_nil hp.symm).symm
  | cons a t ih =>
    intro l2 hp h1 h2 hinj
    cases l2 with
    | nil => exact absurd hp.eq_nil (by simp)
    | cons b t2 =>
      have hbmem : b ∈ a :: t := hp.mem_iff.mpr (List.mem_cons_self b t2)
      have hamem : a ∈ b :: t2 := hp.mem_iff.mp (List.mem_cons_self a t)
      have hka : κ a ≤ κ b := by
        rcases List.mem_cons.mp hbmem with h | h
        · exact le_of_eq (by rw [h])
        · exact List.rel_of_pairwise_cons h1 h
      have hkb : κ b ≤ κ a := by
        rcases List.mem_cons.mp hamem with h | h
        · exact le_of_eq (by rw [h])
        · exact List.rel_of_pairwise_cons h2 h
      have hab : a = b := hinj a (List.mem_cons_self a t) b hbmem (by omega)
      subst hab
      have htp : List.Perm t t2 := (List.perm_cons a).mp hp
      rw [ih t2 htp (List.Pairwise.of_cons h1) (List.Pairwise.of_cons h2)
        (fun x hx y hy => hinj x (List.mem_cons_of_mem a hx) y
          (List.mem_cons_of_mem a hy))]

/-- Distinct entries of the priority table have distinct ranks. -/
theorem obtenerOrdenCampo_inj {k1 k2 : String} (h1 : k1 ∈ OrdenCampos)
    (h2 : k2 ∈ OrdenCampos)
    (he : obtenerOrdenCampo k1 = obtenerOrdenCampo k2) : k1 = k2 := by
  fin_cases h1 <;> fin_cases h2 <;> first | rfl | (exact absurd he (by decide))

/-- In a list sorted by the key, an element with a strictly smaller key appears
at a strictly smaller index. -/
theorem sorted_indexOf_lt {α : Type} [DecidableEq α] (κ : α → Nat) (l : List α)
    (hp : List.Pairwise (fun a b => κ a ≤ κ b) l) {x y : α}
    (hx : x ∈ l) (hy : y ∈ l) (hlt : κ x < κ y) :
    List.indexOf x l < List.indexOf y l := by
  have hxl : List.indexOf x l < l.length := List.indexOf_lt_length.mpr hx
  have hyl : List.indexOf y l < l.length := List.indexOf_lt_length.mpr hy
  have hxe : l[List.indexOf x l] = x := List.getElem_indexOf hxl
  have hye : l[List.indexOf y l] = y := List.getElem_indexOf hyl
  by_contra hge
  push_neg at hge
  have hne : List.indexOf y l ≠ List.indexOf x l := by
    intro he
    have h2 : y = x := (List.indexOf_inj hy hx).mp he
    rw [h2] at hlt
    exact lt_irrefl _ hlt
  have hyx : List.indexOf y l < List.indexOf x l := by omega
  have := (List.pairwise_iff_getElem.mp hp) (List.indexOf y l) (List.indexOf x l)
    hyl hxl hyx
  rw [hxe, hye] at this
  omega

/-- C1 (amended): every key present in the priority table is emitted before
every key absent from it; the stability half of the original claim is refuted
by `C1_counterexample_unstable_at_13`. -/
theorem C1_amended_unranked_after_ranked (claves : List String) (x y : String)
    (hx : x ∈ claves) (hy : y ∈ claves)
    (hxr : x ∈ OrdenCampos) (hyn : y ∉ OrdenCampos) :
    List.indexOf x (ordenarClaves claves) < List.indexOf y (ordenarClaves claves) := by
  apply sorted_indexOf_lt obtenerOrdenCampo _
    (sortSliceGo_pairwise obtenerOrdenCampo claves)
    ((sortSliceGo_perm obtenerOrdenCampo claves).mem_iff.mpr hx)
    ((sortSliceGo_perm obtenerOrdenCampo claves).mem_iff.mpr hy)
  have h1 : obtenerOrdenCampo x < OrdenCampos.length :=
    (obtenerOrdenCampo_lt_iff_mem x).mpr hxr
  have h2 : obtenerOrdenCampo y = OrdenCampos.length :=
    obtenerOrdenCampo_of_not_mem hyn
  omega

/-- Witness for the amended C1: the ranked key `tanner:rut-cliente` precedes
the unranked key `extra` even though `extra` was enumerated first. -/
theorem C1_amended_unranked_after_ranked_witness :
    List.indexOf "tanner:rut-cliente"
        (ordenarClaves ["extra", "tanner:rut-cliente"]) <
      List.indexOf "extra" (ordenarClaves ["extra", "tanner:rut-cliente"]) :=
  C1_amended_unranked_after_ranked ["extra", "tanner:rut-cliente"]
    "tanner:rut-cliente" "extra" (by decide) (by decide) (by decide) (by decide)

/-- C3: keys that are both in the priority table are emitted in rank order. -/
theorem C3_ranked_pair_order (datos : List (String × JVal)) (x y : String)
    (hx : x ∈ List.map Prod.fst datos) (hy : y ∈ List.map Prod.fst datos)
    (hlt : obtenerOrdenCampo x < obtenerOrdenCampo y) :
    List.indexOf x (ordenarClaves (List.map Prod.fst datos)) <
      List.indexOf y (ordenarClaves (List.map Prod.fst datos)) :=
  sorted_indexOf_lt obtenerOrdenCampo _
    (sortSliceGo_pairwise obtenerOrdenCampo (List.map Prod.fst datos))
    ((sortSliceGo_perm obtenerOrdenCampo (List.map Prod.fst datos)).mem_iff.mpr hx)
    ((sortSliceGo_perm obtenerOrdenCampo (List.map Prod.fst datos)).mem_iff.mpr hy)
    hlt

/-- Witness for C3: `tanner:rut-cliente` (rank 2) precedes `cm:title`
(rank 12) although the mapping enumerated them in the other order. -/
theorem C3_ranked_pair_order_witness :
    List.indexOf "tanner:rut-cliente"
        (ordenarClaves (List.map Prod.fst
          [("cm:title", JVal.null), ("tanner:rut-cliente", JVal.null)])) <
      List.indexOf "cm:title"
        (ordenarClaves (List.map Prod.fst
          [("cm:title", JVal.null), ("tanner:rut-cliente", JVal.null)])) :=
  C3_ranked_pair_order [("cm:title", JVal.null), ("tanner:rut-cliente", JVal.null)]
    "tanner:rut-cliente" "cm:title" (by decide) (by decide) (by decide)

/-- C4: the sorted key sequence `OrdenarJSON` renders (one `"clave":valor`
pair per entry, in the order of `ordenarClaves`) is a permutation of the input
keys: every input key appears exactly as often as before — for map keys,
exactly once — and no key is added or dropped. -/
theorem C4_key_set_preserved (datos : List (String × JVal)) :
    List.Perm (ordenarClaves (List.map Prod.fst datos)) (List.map Prod.fst datos) ∧
    ∀ k : String, (ordenarClaves (List.map Prod.fst datos)).count k =
      (List.map Prod.fst datos).count k := by
  have hp := sortSliceGo_perm obtenerOrdenCampo (List.map Prod.fst datos)
  exact ⟨hp, fun k => hp.count_eq k⟩

/-- `map` lookups agree across enumeration orders: for duplicate-free keys,
`List.lookup` is invariant under permutation. -/
theorem lookup_eq_of_perm {β : Type} {l1 l2 : List (String × β)}
    (hp : List.Perm l1 l2) :
    (List.map Prod.fst l1).Nodup → ∀ k, List.lookup k l1 = List.lookup k l2 := by
  induction hp with
  | nil =>
    intro _ k
    rfl
  | cons x h ih =>
    intro hnd k
    rcases x with ⟨a, v⟩
    simp only [List.map_cons] at hnd
    cases hk : k == a with
    | true => simp [List.lookup, hk]
    | false => simp [List.lookup, hk, ih hnd.of_cons k]
  | swap x y t =>
    intro hnd k
    rcases x with ⟨a, v⟩
    rcases y with ⟨b, w⟩
    have hba : b ≠ a := by
      simp only [List.map_cons, List.nodup_cons, List.mem_cons] at hnd
      exact fun he => hnd.1 (Or.inl he)
    cases hk1 : k == b with
    | true =>
      have hk2 : (k == a) = false := by
        have : k = b := eq_of_beq hk1
        subst this
        exact beq_eq_false_iff_ne.mpr hba
      simp [List.lookup, hk1, hk2]
    | false =>
      cases hk2 : k == a with
      | true => simp [List.lookup, hk1, hk2]
      | false => simp [List.lookup, hk1, hk2]
  | trans h1 h2 ih1 ih2 =>
    intro hnd k
    rw [ih1 hnd k, ih2 (((h1.map Prod.fst).nodup_iff).mp hnd) k]

/-- C2 (amended): the output depends only on the underlying finite map when at
most one key is unranked; the general two-enumeration case is refuted by
`C2_counterexample_enumeration_dependent`. -/
theorem C2_amended_deterministic (datos1 datos2 : List (String × JVal))
    (hperm : List.Perm datos1 datos2)
    (hnd : (List.map Prod.fst datos1).Nodup)
    (hone : (List.map Prod.fst datos1).countP
      (fun k => decide (obtenerOrdenCampo k = 17)) ≤ 1) :
    OrdenarJSON (GoInput.map datos1) = OrdenarJSON (GoInput.map datos2) := by
  have hpermk : List.Perm (List.map Prod.fst datos1) (List.map Prod.fst datos2) :=
    hperm.map Prod.fst
  have hkeys : ordenarClaves (List.map Prod.fst datos1) =
      ordenarClaves (List.map Prod.fst datos2) := by
    apply eq_of_perm_sorted obtenerOrdenCampo
    · exact (sortSliceGo_perm _ _).trans
        (hpermk.trans (sortSliceGo_perm obtenerOrdenCampo _).symm)
    · exact sortSliceGo_pairwise _ _
    · exact sortSliceGo_pairwise _ _
    · intro x hx y hy he
      have hx1 : x ∈ List.map Prod.fst datos1 := (sortSliceGo_perm _ _).mem_iff.mp hx
      have hy1 : y ∈ List.map Prod.fst datos1 := (sortSliceGo_perm _ _).mem_iff.mp hy
      have hlen17 : OrdenCampos.length = 17 := rfl
      by_cases hxr : obtenerOrdenCampo x < 17
      · have hxm : x ∈ OrdenCampos := (obtenerOrdenCampo_lt_iff_mem x).mp hxr
        have hym : y ∈ OrdenCampos := (obtenerOrdenCampo_lt_iff_mem y).mp (by omega)
        exact obtenerOrdenCampo_inj hxm hym he
      · have hx17 : obtenerOrdenCampo x = 17 := by
          by_cases hm : x ∈ OrdenCampos
          · exact absurd ((obtenerOrdenCampo_lt_iff_mem x).mpr hm) hxr
          · exact obtenerOrdenCampo_of_not_mem hm
        have hy17 : obtenerOrdenCampo y = 17 := by omega
        by_contra hne
        have hxf : x ∈ (List.map Prod.fst datos1).filter
            (fun k => decide (obtenerOrdenCampo k = 17)) :=
          List.mem_filter.mpr ⟨hx1, by simp [hx17]⟩
        have hyf : y ∈ (List.map Prod.fst datos1).filter
            (fun k => decide (obtenerOrdenCampo k = 17)) :=
          List.mem_filter.mpr ⟨hy1, by simp [hy17]⟩
        have hyf' : y ∈ ((List.map Prod.fst datos1).filter
            (fun k => decide (obtenerOrdenCampo k = 17))).erase x :=
          (List.mem_erase_of_ne (fun he2 => hne he2.symm)).mpr hyf
        have hlen1 : ((List.map Prod.fst datos1).filter
            (fun k => decide (obtenerOrdenCampo k = 17))).erase x ≠ [] :=
          List.ne_nil_of_mem hyf'
        have hlen2 := List.length_erase_of_mem hxf
        have hlen3 : (List.map Prod.fst datos1).countP
            (fun k => decide (obtenerOrdenCampo k = 17)) =
            ((List.map Prod.fst datos1).filter
              (fun k => decide (obtenerOrdenCampo k = 17))).length := by
          rw [List.countP_eq_length_filter]
        have hlen4 : 0 < (((List.map Prod.fst datos1).filter
            (fun k => decide (obtenerOrdenCampo k = 17))).erase x).length :=
          List.length_pos.mpr hlen1
        omega
  have hlook : ∀ k, List.lookup k datos1 = List.lookup k datos2 :=
    lookup_eq_of_perm hperm hnd
  have hrender : ∀ l : List String, renderPairs datos1 l = renderPairs datos2 l := by
    intro l
    induction l with
    | nil => rfl
    | cons c t ih => simp only [renderPairs, renderPair, hlook c, ih]
  show ordenarDatos datos1 = ordenarDatos datos2
  simp only [ordenarDatos]
  rw [hkeys, hrender]

/-- Witness for the amended C2: the two enumeration orders of a two-entry map
with the single unranked key `b` render identically. -/
theorem C2_amended_deterministic_witness :
    OrdenarJSON (GoInput.map [("tanner:rut-cliente", JVal.null), ("b", JVal.null)]) =
      OrdenarJSON (GoInput.map [("b", JVal.null), ("tanner:rut-cliente", JVal.null)]) :=
  C2_amended_deterministic _ _ (List.Perm.swap _ _ _) (by decide) (by decide)
